import Mathlib

/-!
A verification development for the memory-management core of the `edit`
repository (crate `stdext`): the arena bump allocator
(`src/crates/stdext/src/arena/release.rs`), the scratch-arena pair
(`arena/scratch.rs`), the debug borrow tracker (`arena/debug.rs`), and the
growable containers `BVec`/`BString` (`collections/vec.rs`,
`collections/string.rs`).

Machine integers (`usize`) are modelled as `Nat`; the few places where the
source relies on two's-complement bit tricks are embedded with the exact
bit operations and characterised by lemmas under the no-overflow bounds
that hold at every call site.  Fallible paths (OS reserve/commit failure,
`panic!`) are modelled with `Option`, `none` standing for a panic/abort.
-/

namespace Stdext

/-- Number of value bits in `usize` (the code is modelled for 64-bit targets). -/
def USIZE_BITS : Nat := 64

/-- `2 ^ 64`, the modulus of `usize` arithmetic. -/
def USIZE_MOD : Nat := 2 ^ USIZE_BITS

/-- Bitwise complement of a 64-bit value, as in Rust's `!x` on `usize`
(for `x < 2^64` this is `2^64 - 1 - x`). -/
def usize_not (x : Nat) : Nat := USIZE_MOD - 1 - x

/-- `ALLOC_CHUNK_SIZE` from `arena/release.rs` (64 KiB on 64-bit targets). -/
def ALLOC_CHUNK_SIZE : Nat := 64 * 1024

/-- The alignment idiom `(x + a - 1) & !(a - 1)` from `alloc_raw` and
`alloc_raw_bump` in `arena/release.rs`, with the wrapping `usize` addition
made explicit (`% 2^64`). -/
def align_up (x a : Nat) : Nat := ((x + a - 1) % USIZE_MOD) &&& usize_not (a - 1)

/-- Key bit identity: masking a value `y < 2^n` with the high mask
`2^n - 2^k` clears its low `k` bits, i.e. rounds it down to a multiple
of `2^k`. -/
theorem and_high_mask (y n k : Nat) (hk : k ≤ n) (hy : y < 2 ^ n) :
    y &&& (2 ^ n - 2 ^ k) = y / 2 ^ k * 2 ^ k := by
  have hmask : 2 ^ n - 2 ^ k = (2 ^ (n - k) - 1) <<< k := by
    rw [Nat.shiftLeft_eq, Nat.sub_mul, Nat.one_mul, ← Nat.pow_add]
    rw [Nat.sub_add_cancel hk]
  have hrhs : y / 2 ^ k * 2 ^ k = (y >>> k) <<< k := by
    rw [Nat.shiftRight_eq_div_pow, Nat.shiftLeft_eq]
  rw [hmask, hrhs]
  apply Nat.eq_of_testBit_eq
  intro i
  rw [Nat.testBit_and, Nat.testBit_shiftLeft, Nat.testBit_shiftLeft,
    Nat.testBit_shiftRight, Nat.testBit_two_pow_sub_one]
  by_cases hik : k ≤ i
  · have : k + (i - k) = i := by omega
    rw [this]
    by_cases hin : i < n
    · simp [hik, Nat.lt_sub_of_add_lt, show i - k < n - k by omega]
    · have : y.testBit i = false := Nat.testBit_lt_two_pow (by
        calc y < 2 ^ n := hy
        _ ≤ 2 ^ i := Nat.pow_le_pow_right (by omega) (by omega))
      simp [this]
  · simp [show ¬ (i ≥ k) by omega]

/-- Characterisation of `align_up` at a power-of-two alignment, under the
no-overflow bound that holds at every call site: it rounds `x` up to the
next multiple of `2^k`. -/
theorem align_up_eq (x k : Nat) (hk : k ≤ USIZE_BITS)
    (hx : x + 2 ^ k - 1 < USIZE_MOD) :
    align_up x (2 ^ k) = (x + 2 ^ k - 1) / 2 ^ k * 2 ^ k := by
  have hpos : 0 < 2 ^ k := Nat.pos_pow_of_pos k (by omega)
  have hnot : usize_not (2 ^ k - 1) = 2 ^ USIZE_BITS - 2 ^ k := by
    unfold usize_not USIZE_MOD
    omega
  unfold align_up
  rw [Nat.mod_eq_of_lt hx, hnot]
  exact and_high_mask _ USIZE_BITS k hk hx

/-- `align_up` rounds up: the result is at least `x`. -/
theorem align_up_ge (x k : Nat) (hk : k ≤ USIZE_BITS)
    (hx : x + 2 ^ k - 1 < USIZE_MOD) : x ≤ align_up x (2 ^ k) := by
  rw [align_up_eq x k hk hx]
  have hpos : 0 < 2 ^ k := Nat.pos_pow_of_pos k (by omega)
  have h := Nat.div_add_mod (x + 2 ^ k - 1) (2 ^ k)
  have hmod : (x + 2 ^ k - 1) % 2 ^ k < 2 ^ k := Nat.mod_lt _ hpos
  have hc : (x + 2 ^ k - 1) / 2 ^ k * 2 ^ k = 2 ^ k * ((x + 2 ^ k - 1) / 2 ^ k) :=
    Nat.mul_comm _ _
  omega

/-- `align_up` overshoots by less than the alignment. -/
theorem align_up_lt (x k : Nat) (hk : k ≤ USIZE_BITS)
    (hx : x + 2 ^ k - 1 < USIZE_MOD) : align_up x (2 ^ k) < x + 2 ^ k := by
  rw [align_up_eq x k hk hx]
  have hpos : 0 < 2 ^ k := Nat.pos_pow_of_pos k (by omega)
  have h := Nat.div_add_mod (x + 2 ^ k - 1) (2 ^ k)
  have hc : (x + 2 ^ k - 1) / 2 ^ k * 2 ^ k = 2 ^ k * ((x + 2 ^ k - 1) / 2 ^ k) :=
    Nat.mul_comm _ _
  omega

/-- The result of `align_up` is a multiple of the alignment. -/
theorem align_up_dvd (x k : Nat) (hk : k ≤ USIZE_BITS)
    (hx : x + 2 ^ k - 1 < USIZE_MOD) : 2 ^ k ∣ align_up x (2 ^ k) := by
  rw [align_up_eq x k hk hx]
  exact ⟨(x + 2 ^ k - 1) / 2 ^ k, Nat.mul_comm _ _⟩

/-! ## Arena (bump allocator), from `arena/release.rs`

The arena state mirrors `struct Arena { base, capacity, commit, offset }`
(release build: the `borrows` cell is part of the debug layer, modelled
separately below).  Byte memory is carried as a function from absolute
addresses to byte values so the `realloc` copy can be stated.
OS interaction (`sys::virtual_commit`) is modelled by a boolean saying
whether the commit call would succeed, and every commit call the code
makes is recorded in the result. -/

structure Arena where
  base : Nat
  capacity : Nat
  commit : Nat
  offset : Nat
  mem : Nat → Nat

/-- `Arena::empty()`. -/
def Arena.empty : Arena :=
  { base := 0, capacity := 0, commit := 0, offset := 0, mem := fun _ => 0 }

/-- `Arena::new(capacity)`: rounds the capacity up to `ALLOC_CHUNK_SIZE`
(via `(capacity.max(1) + ALLOC_CHUNK_SIZE - 1) & !(ALLOC_CHUNK_SIZE - 1)`)
and reserves virtual memory.  `reserve` is the OS response to
`virtual_reserve`: `some base` on success, `none` on failure (which the
code surfaces as a recoverable `io::Result` error). -/
def Arena.new (reserve : Nat → Option Nat) (capacity : Nat) : Option Arena :=
  let capacity := align_up (max capacity 1) ALLOC_CHUNK_SIZE
  match reserve capacity with
  | none => none
  | some base =>
    some { base, capacity, commit := 0, offset := 0, mem := fun _ => 0 }

/-- Result of an allocation: the new arena state, the absolute address and
byte length of the returned `NonNull<[u8]>`, and the list of
`virtual_commit` calls made (arena-relative offset, size). -/
structure AllocResult where
  arena : Arena
  ptr : Nat
  len : Nat
  commits : List (Nat × Nat)

/-- `Arena::alloc_raw_bump(beg, end)`: the cold path.  Rounds the commit
target up to the chunk size, panics (`none`) if that exceeds the capacity
or the OS commit call fails, otherwise commits the new pages and bumps
`offset` to `end`.  `ok` is the OS response to the single
`virtual_commit` call. -/
def Arena.alloc_raw_bump (ok : Bool) (a : Arena) (beg e : Nat) : Option AllocResult :=
  let commit_old := a.commit
  let commit_new := align_up e ALLOC_CHUNK_SIZE
  if commit_new > a.capacity ∨ ok = false then
    none
  else
    some { arena := { a with commit := commit_new, offset := e },
           ptr := a.base + beg, len := e - beg,
           commits := [(commit_old, commit_new - commit_old)] }

/-- `Arena::alloc_raw(bytes, alignment)`: the hot path.  Computes
`beg = align_up(offset, alignment)`, `end = beg + bytes`; if
`end <= commit` it just bumps `offset` (no commit call), otherwise it
defers to `alloc_raw_bump`. -/
def Arena.alloc_raw (ok : Bool) (a : Arena) (bytes alignment : Nat) : Option AllocResult :=
  let beg := align_up a.offset alignment
  let e := beg + bytes
  if e > a.commit then
    a.alloc_raw_bump ok beg e
  else
    some { arena := { a with offset := e },
           ptr := a.base + beg, len := bytes, commits := [] }

/-- `Arena::reset(to)`: sets `offset = to` unconditionally (the debug-only
poison fill does not change the modelled release state). -/
def Arena.reset (a : Arena) (t : Nat) : Arena := { a with offset := t }

/-- `<Arena as Allocator>::realloc`.  If `old_ptr + old_size` is the
arena's current bump position the allocation is the most recent one and is
grown (via `alloc_raw`) or shrunk in place, returning the same pointer;
otherwise growth allocates fresh space and copies `old_size` bytes, and
shrink of a non-last allocation returns the old slice unchanged (release
behaviour of `debug_assert!(false)`). -/
def Arena.realloc (ok : Bool) (a : Arena)
    (old_ptr old_size new_size align : Nat) : Option AllocResult :=
  if old_ptr + old_size = a.base + a.offset then
    if new_size > old_size then
      match a.alloc_raw ok (new_size - old_size) align with
      | none => none
      | some r =>
        some { arena := r.arena, ptr := old_ptr, len := new_size,
               commits := r.commits }
    else
      some { arena := { a with offset := a.offset - old_size + new_size },
             ptr := old_ptr, len := new_size, commits := [] }
  else if new_size > old_size then
    match a.alloc_raw ok new_size align with
    | none => none
    | some r =>
      let copied : Nat → Nat := fun ad =>
        if r.ptr ≤ ad ∧ ad < r.ptr + old_size then
          a.mem (old_ptr + (ad - r.ptr))
        else r.arena.mem ad
      some { arena := { r.arena with mem := copied },
             ptr := r.ptr, len := new_size, commits := r.commits }
  else
    some { arena := a, ptr := old_ptr, len := old_size, commits := [] }

/-- `ALLOC_CHUNK_SIZE` is the power of two `2 ^ 16`. -/
theorem chunk_eq : ALLOC_CHUNK_SIZE = 2 ^ 16 := by decide

/-- The invariant of the spec: `0 <= offset <= commit <= capacity`
(the lower bound is implicit in `Nat`). -/
def Arena.Inv (a : Arena) : Prop := a.offset ≤ a.commit ∧ a.commit ≤ a.capacity

/-- Behaviour of a successful `alloc_raw` under the call-site bounds:
the invariant is preserved, `commit` grows monotonically, `capacity`,
`base` and `mem` are untouched, and `offset` does not go backwards. -/
theorem alloc_raw_spec (ok : Bool) (a : Arena) (bytes k : Nat) (res : AllocResult)
    (hk : k ≤ 32) (hb : bytes ≤ 2 ^ 32) (hcap : a.capacity ≤ 2 ^ 48)
    (hInv : a.Inv) (h : a.alloc_raw ok bytes (2 ^ k) = some res) :
    res.arena.Inv ∧ a.commit ≤ res.arena.commit ∧
    res.arena.capacity = a.capacity ∧ res.arena.base = a.base ∧
    res.arena.mem = a.mem ∧ a.offset ≤ res.arena.offset := by
  obtain ⟨h1, h2⟩ := hInv
  have hoff : a.offset ≤ 2 ^ 48 := le_trans h1 (le_trans h2 hcap)
  have hxk : a.offset + 2 ^ k - 1 < USIZE_MOD := by
    have : (2 : Nat) ^ k ≤ 2 ^ 32 := Nat.pow_le_pow_right (by omega) hk
    unfold USIZE_MOD USIZE_BITS
    have : (2:Nat) ^ 48 + 2 ^ 32 < 2 ^ 64 := by norm_num
    omega
  have hbeg_ge := align_up_ge a.offset k (by unfold USIZE_BITS; omega) hxk
  have hbeg_lt := align_up_lt a.offset k (by unfold USIZE_BITS; omega) hxk
  set beg := align_up a.offset (2 ^ k) with hbeg
  have hke : (2:Nat) ^ k ≤ 2 ^ 32 := Nat.pow_le_pow_right (by omega) hk
  have he_bound : beg + bytes + ALLOC_CHUNK_SIZE - 1 < USIZE_MOD := by
    rw [chunk_eq]
    unfold USIZE_MOD USIZE_BITS
    have : (2:Nat) ^ 48 + 2 ^ 32 + 2 ^ 32 + 2 ^ 16 < 2 ^ 64 := by norm_num
    omega
  have hcm_ge := align_up_ge (beg + bytes) 16 (by unfold USIZE_BITS; omega)
    (by rw [chunk_eq] at he_bound; exact he_bound)
  rw [chunk_eq] at he_bound
  simp only [Arena.alloc_raw, Arena.alloc_raw_bump, ← hbeg] at h
  split at h
  · -- bump path
    rw [chunk_eq] at h
    split at h
    · exact absurd h (by simp)
    · simp only [Option.some.injEq] at h
      subst h
      rename_i hgt hfail
      push_neg at hfail
      refine ⟨⟨?_, ?_⟩, ?_, rfl, rfl, rfl, ?_⟩ <;> dsimp only <;> omega
  · -- fast path: end ≤ commit
    simp only [Option.some.injEq] at h
    subst h
    rename_i hle
    push_neg at hle
    refine ⟨⟨hle, h2⟩, le_refl _, rfl, rfl, rfl, ?_⟩
    dsimp only
    omega

/-- Behaviour of a successful `realloc` under the precondition that the
old pointer originated from this arena: invariant preserved, `commit`
monotone, geometry untouched. -/
theorem realloc_spec (ok : Bool) (a : Arena)
    (old_ptr old_size new_size k : Nat) (res : AllocResult)
    (hk : k ≤ 32) (hb : new_size ≤ 2 ^ 32) (hcap : a.capacity ≤ 2 ^ 48)
    (hInv : a.Inv)
    (horigin : a.base ≤ old_ptr ∧ old_ptr + old_size ≤ a.base + a.offset)
    (h : a.realloc ok old_ptr old_size new_size (2 ^ k) = some res) :
    res.arena.Inv ∧ a.commit ≤ res.arena.commit ∧
    res.arena.capacity = a.capacity ∧ res.arena.base = a.base := by
  obtain ⟨h1, h2⟩ := hInv
  simp only [Arena.realloc] at h
  split at h
  · -- last allocation: grow or shrink in place
    split at h
    · -- grow via alloc_raw
      rcases hr : a.alloc_raw ok (new_size - old_size) (2 ^ k) with _ | r
      · rw [hr] at h
        exact absurd h (by simp)
      · rw [hr] at h
        simp only [Option.some.injEq] at h
        subst h
        have := alloc_raw_spec ok a (new_size - old_size) k r hk (by omega) hcap ⟨h1, h2⟩ hr
        exact ⟨this.1, this.2.1, this.2.2.1, this.2.2.2.1⟩
    · -- shrink in place: offset moves back
      simp only [Option.some.injEq] at h
      subst h
      exact ⟨⟨by dsimp only; omega, h2⟩, le_refl _, rfl, rfl⟩
  · split at h
    · -- not the last allocation: fresh allocation plus copy
      rcases hr : a.alloc_raw ok new_size (2 ^ k) with _ | r
      · rw [hr] at h
        exact absurd h (by simp)
      · rw [hr] at h
        simp only [Option.some.injEq] at h
        subst h
        have := alloc_raw_spec ok a new_size k r hk hb hcap ⟨h1, h2⟩ hr
        exact ⟨this.1, this.2.1, this.2.2.1, this.2.2.2.1⟩
    · -- shrink of a non-last allocation: release build returns unchanged
      simp only [Option.some.injEq] at h
      subst h
      exact ⟨⟨h1, h2⟩, le_refl _, rfl, rfl⟩

/-- States (and the offsets observed along the way) reachable from
`Arena::new`/`Arena::empty` through `alloc_raw` (hence
`alloc_uninit`/`alloc_uninit_array`/`alloc_uninit_slice`/`alloc_slice`,
which all delegate to it), `realloc` under its origination precondition,
and `reset(to)` restricted to previously observed offsets.  The numeric
bounds are the no-overflow conditions of real call sites (alignments are
at most `2^32`, requests at most `2^32` bytes, capacities below `2^47`). -/
inductive Reached : Arena → List Nat → Prop where
  | empty : Reached Arena.empty [0]
  | new (reserve : Nat → Option Nat) (c : Nat) (a : Arena) (hc : c ≤ 2 ^ 47)
      (h : Arena.new reserve c = some a) : Reached a [0]
  | alloc (a : Arena) (obs : List Nat) (bytes k : Nat) (ok : Bool)
      (res : AllocResult) (h : Reached a obs) (hk : k ≤ 32) (hb : bytes ≤ 2 ^ 32)
      (hr : a.alloc_raw ok bytes (2 ^ k) = some res) :
      Reached res.arena (res.arena.offset :: obs)
  | realloc (a : Arena) (obs : List Nat) (old_ptr old_size new_size k : Nat)
      (ok : Bool) (res : AllocResult) (h : Reached a obs)
      (hk : k ≤ 32) (hb : new_size ≤ 2 ^ 32)
      (horigin : a.base ≤ old_ptr ∧ old_ptr + old_size ≤ a.base + a.offset)
      (hr : a.realloc ok old_ptr old_size new_size (2 ^ k) = some res) :
      Reached res.arena (res.arena.offset :: obs)
  | reset (a : Arena) (obs : List Nat) (t : Nat) (h : Reached a obs)
      (ht : t ∈ obs) : Reached (a.reset t) (t :: obs)

/-- Auxiliary strengthening of the claimed invariant: reachable states
also keep `capacity ≤ 2^48` and every observed offset below the current
commit level (commit only ever grows). -/
theorem reached_strong (a : Arena) (obs : List Nat) (h : Reached a obs) :
    a.Inv ∧ a.capacity ≤ 2 ^ 48 ∧ ∀ o ∈ obs, o ≤ a.commit := by
  induction h with
  | empty =>
    refine ⟨⟨le_refl _, le_refl _⟩, by simp [Arena.empty], ?_⟩
    intro o ho
    simp only [List.mem_singleton] at ho
    simp [ho, Arena.empty]
  | new reserve c a hc hnew =>
    simp only [Arena.new] at hnew
    rcases hres : reserve (align_up (max c 1) ALLOC_CHUNK_SIZE) with _ | base
    · rw [hres] at hnew
      exact absurd hnew (by simp)
    · rw [hres] at hnew
      simp only [Option.some.injEq] at hnew
      subst hnew
      have hx : max c 1 + ALLOC_CHUNK_SIZE - 1 < USIZE_MOD := by
        rw [chunk_eq]
        unfold USIZE_MOD USIZE_BITS
        have : (2:Nat) ^ 47 + 2 ^ 16 < 2 ^ 64 := by norm_num
        omega
      have := align_up_lt (max c 1) 16 (by unfold USIZE_BITS; omega)
        (by rw [chunk_eq] at hx; exact hx)
      rw [← chunk_eq] at this
      refine ⟨⟨le_refl _, Nat.zero_le _⟩, ?_, ?_⟩
      · dsimp only
        have h48 : (2:Nat) ^ 47 + 2 ^ 16 ≤ 2 ^ 48 := by norm_num
        rw [chunk_eq] at *
        omega
      · intro o ho
        simp only [List.mem_singleton] at ho
        simp [ho]
  | alloc a obs bytes k ok res hre hk hb hr ih =>
    obtain ⟨hInv, hcap, hobs⟩ := ih
    have := alloc_raw_spec ok a bytes k res hk hb hcap hInv hr
    refine ⟨this.1, by rw [this.2.2.1]; exact hcap, ?_⟩
    intro o ho
    rcases List.mem_cons.1 ho with h | h
    · rw [h]; exact this.1.1
    · exact le_trans (hobs o h) this.2.1
  | realloc a obs old_ptr old_size new_size k ok res hre hk hb horigin hr ih =>
    obtain ⟨hInv, hcap, hobs⟩ := ih
    have := realloc_spec ok a old_ptr old_size new_size k res hk hb hcap hInv horigin hr
    refine ⟨this.1, by rw [this.2.2.1]; exact hcap, ?_⟩
    intro o ho
    rcases List.mem_cons.1 ho with h | h
    · rw [h]; exact this.1.1
    · exact le_trans (hobs o h) this.2.1
  | reset a obs t hre ht ih =>
    obtain ⟨hInv, hcap, hobs⟩ := ih
    refine ⟨⟨hobs t ht, hInv.2⟩, hcap, ?_⟩
    intro o ho
    rcases List.mem_cons.1 ho with h | h
    · rw [h]; exact hobs t ht
    · exact hobs o h

/-- C1: for every arena created by `Arena::new` or `Arena::empty`, the
invariant `0 <= offset <= committed <= capacity` holds initially and is
preserved by every operation on it — `alloc_raw` (hence the
`alloc_uninit*`/`alloc_slice` wrappers), `realloc` under the precondition
that the pointer originated from this arena, and `reset(to)` under the
precondition that `to` is a previously observed offset of this same
arena.  `Reached` is exactly that set of states. -/
theorem arena_inv_reachable (a : Arena) (obs : List Nat) (h : Reached a obs) :
    a.offset ≤ a.commit ∧ a.commit ≤ a.capacity :=
  ⟨(reached_strong a obs h).1.1, (reached_strong a obs h).1.2⟩

/-- Witness for C1 at a concrete reachable state. -/
theorem arena_inv_reachable_witness :
    Arena.empty.offset ≤ Arena.empty.commit ∧
    Arena.empty.commit ≤ Arena.empty.capacity :=
  arena_inv_reachable Arena.empty [0] Reached.empty

/-- C2: `alloc_raw(size, align)` with a power-of-two alignment computes
`beg = align_up(offset, align)` and `end = beg + size`.  If
`end <= committed` it only bumps `offset` to `end` and returns the range
`[beg, end)`, making no commit call; if `end > committed` it commits
chunk-aligned pages up to `align_up(end, chunk)` and panics (process
abort, `none` — never a recoverable error value) exactly when the
chunk-rounded commit target exceeds the capacity or the OS commit call
fails. -/
theorem alloc_raw_contract (ok : Bool) (a : Arena) (bytes k : Nat)
    (hk : k ≤ 32) (hb : bytes ≤ 2 ^ 32) (hcap : a.capacity ≤ 2 ^ 48)
    (hInv : a.Inv) :
    (align_up a.offset (2 ^ k) + bytes ≤ a.commit →
      a.alloc_raw ok bytes (2 ^ k) =
        some { arena := { a with offset := align_up a.offset (2 ^ k) + bytes },
               ptr := a.base + align_up a.offset (2 ^ k), len := bytes,
               commits := [] }) ∧
    (align_up a.offset (2 ^ k) + bytes > a.commit →
      (a.alloc_raw ok bytes (2 ^ k) = none ↔
        align_up (align_up a.offset (2 ^ k) + bytes) ALLOC_CHUNK_SIZE > a.capacity ∨
        ok = false) ∧
      ∀ res, a.alloc_raw ok bytes (2 ^ k) = some res →
        res.arena = { a with
          commit := align_up (align_up a.offset (2 ^ k) + bytes) ALLOC_CHUNK_SIZE,
          offset := align_up a.offset (2 ^ k) + bytes } ∧
        ALLOC_CHUNK_SIZE ∣ res.arena.commit ∧
        res.ptr = a.base + align_up a.offset (2 ^ k) ∧
        res.commits = [(a.commit, res.arena.commit - a.commit)]) := by
  obtain ⟨h1, h2⟩ := hInv
  have hoff : a.offset ≤ 2 ^ 48 := le_trans h1 (le_trans h2 hcap)
  have hxk : a.offset + 2 ^ k - 1 < USIZE_MOD := by
    have : (2 : Nat) ^ k ≤ 2 ^ 32 := Nat.pow_le_pow_right (by omega) hk
    unfold USIZE_MOD USIZE_BITS
    have : (2:Nat) ^ 48 + 2 ^ 32 < 2 ^ 64 := by norm_num
    omega
  have hbeg_lt := align_up_lt a.offset k (by unfold USIZE_BITS; omega) hxk
  set beg := align_up a.offset (2 ^ k) with hbeg
  have hke : (2:Nat) ^ k ≤ 2 ^ 32 := Nat.pow_le_pow_right (by omega) hk
  have he_bound : beg + bytes + 2 ^ 16 - 1 < USIZE_MOD := by
    unfold USIZE_MOD USIZE_BITS
    have : (2:Nat) ^ 48 + 2 ^ 32 + 2 ^ 32 + 2 ^ 16 < 2 ^ 64 := by norm_num
    omega
  constructor
  · intro hle
    simp only [Arena.alloc_raw, ← hbeg]
    rw [if_neg (by omega)]
  · intro hgt
    have hdvd := align_up_dvd (beg + bytes) 16 (by unfold USIZE_BITS; omega) he_bound
    constructor
    · simp only [Arena.alloc_raw, Arena.alloc_raw_bump, ← hbeg]
      rw [if_pos (by omega), chunk_eq]
      constructor
      · intro hnone
        by_contra hcontra
        rw [if_neg hcontra] at hnone
        exact absurd hnone (by simp)
      · intro hcond
        rw [if_pos hcond]
    · intro res hres
      simp only [Arena.alloc_raw, Arena.alloc_raw_bump, ← hbeg] at hres
      rw [if_pos (by omega)] at hres
      split at hres
      · exact absurd hres (by simp)
      · simp only [Option.some.injEq] at hres
        subst hres
        rw [chunk_eq]
        exact ⟨rfl, by dsimp only; rw [← chunk_eq] at hdvd ⊢; exact hdvd, rfl, rfl⟩

/-- Witness for C2 (fast path on the empty arena). -/
theorem alloc_raw_contract_witness :
    Arena.empty.alloc_raw true 0 (2 ^ 0) =
      some { arena := { Arena.empty with offset := align_up Arena.empty.offset (2 ^ 0) + 0 },
             ptr := Arena.empty.base + align_up Arena.empty.offset (2 ^ 0), len := 0,
             commits := [] } :=
  (alloc_raw_contract true Arena.empty 0 0 (by decide) (by decide) (by decide)
    ⟨le_refl _, le_refl _⟩).1 (by decide)

/-- C6: `Arena::new(c)` reserves at least `c` bytes, rounded to the 64 KiB
commit-chunk size (the capacity is `align_up(max(c,1), chunk)`, chunk
aligned and exactly the round-up of `c` for `c ≥ 1`), returns a
recoverable error exactly when the OS reserve fails, commits nothing at
construction (`committed = offset = 0`), and the arena's first
(non-empty) allocation triggers exactly one commit call covering at least
the chunk size. -/
theorem arena_new_contract (reserve : Nat → Option Nat) (c : Nat)
    (hc : c ≤ 2 ^ 47) :
    (Arena.new reserve c = none ↔
      reserve (align_up (max c 1) ALLOC_CHUNK_SIZE) = none) ∧
    ∀ a, Arena.new reserve c = some a →
      a.capacity = align_up (max c 1) ALLOC_CHUNK_SIZE ∧
      c ≤ a.capacity ∧ ALLOC_CHUNK_SIZE ∣ a.capacity ∧
      (1 ≤ c → a.capacity = align_up c ALLOC_CHUNK_SIZE) ∧
      a.commit = 0 ∧ a.offset = 0 ∧
      ∀ ok bytes k res, 0 < bytes → k ≤ 32 → bytes ≤ 2 ^ 32 →
        a.alloc_raw ok bytes (2 ^ k) = some res →
        res.commits = [(0, res.arena.commit)] ∧
        ALLOC_CHUNK_SIZE ≤ res.arena.commit := by
  have hx : max c 1 + 2 ^ 16 - 1 < USIZE_MOD := by
    unfold USIZE_MOD USIZE_BITS
    have : (2:Nat) ^ 47 + 2 ^ 16 < 2 ^ 64 := by norm_num
    omega
  have hcap_ge := align_up_ge (max c 1) 16 (by unfold USIZE_BITS; omega) hx
  have hcap_lt := align_up_lt (max c 1) 16 (by unfold USIZE_BITS; omega) hx
  constructor
  · simp only [Arena.new]
    rcases hres : reserve (align_up (max c 1) ALLOC_CHUNK_SIZE) with _ | base
    · simp [hres]
    · simp [hres]
  · intro a hnew
    simp only [Arena.new] at hnew
    rcases hres : reserve (align_up (max c 1) ALLOC_CHUNK_SIZE) with _ | base
    · rw [hres] at hnew
      exact absurd hnew (by simp)
    · rw [hres] at hnew
      simp only [Option.some.injEq] at hnew
      subst hnew
      refine ⟨rfl, ?_, ?_, ?_, rfl, rfl, ?_⟩
      · dsimp only
        rw [chunk_eq]
        omega
      · dsimp only
        rw [chunk_eq]
        exact align_up_dvd (max c 1) 16 (by unfold USIZE_BITS; omega) hx
      · intro hc1
        dsimp only
        have : max c 1 = c := by omega
        rw [this]
      · intro ok bytes k res hpos hk hb hr
        have hbeg0 : align_up 0 (2 ^ k) = 0 := by
          rw [align_up_eq 0 k (by unfold USIZE_BITS; omega) (by
            have : (2:Nat) ^ k ≤ 2 ^ 32 := Nat.pow_le_pow_right (by omega) hk
            unfold USIZE_MOD USIZE_BITS
            have : (2:Nat) ^ 32 < 2 ^ 64 := by norm_num
            omega)]
          have hpos2 : 0 < 2 ^ k := Nat.pos_pow_of_pos k (by omega)
          have : (0 + 2 ^ k - 1) / 2 ^ k = 0 := Nat.div_eq_of_lt (by omega)
          rw [this, Nat.zero_mul]
        have he_bound : bytes + 2 ^ 16 - 1 < USIZE_MOD := by
          unfold USIZE_MOD USIZE_BITS
          have : (2:Nat) ^ 32 + 2 ^ 16 < 2 ^ 64 := by norm_num
          omega
        have hcm_ge := align_up_ge bytes 16 (by unfold USIZE_BITS; omega) he_bound
        have hdvd := align_up_dvd bytes 16 (by unfold USIZE_BITS; omega) he_bound
        simp only [Arena.alloc_raw, Arena.alloc_raw_bump, hbeg0] at hr
        rw [Nat.zero_add] at hr
        rw [if_pos (by omega)] at hr
        split at hr
        · exact absurd hr (by simp)
        · simp only [Option.some.injEq] at hr
          subst hr
          dsimp only
          refine ⟨by rw [Nat.sub_zero], ?_⟩
          rw [chunk_eq]
          rcases hdvd with ⟨m, hm⟩
          have : m ≠ 0 := by
            intro h0
            rw [h0, Nat.mul_zero] at hm
            omega
          calc (2:Nat) ^ 16 ≤ 2 ^ 16 * m := by
                have : 1 ≤ m := by omega
                calc (2:Nat) ^ 16 = 2 ^ 16 * 1 := by rw [Nat.mul_one]
                _ ≤ 2 ^ 16 * m := Nat.mul_le_mul_left _ this
          _ = align_up bytes (2 ^ 16) := hm.symm

/-- Witness for C6 at capacity 1 with a successful OS reserve. -/
theorem arena_new_contract_witness :
    Arena.new (fun _ => some 4096) 1 = none ↔
      (fun _ => some 4096 : Nat → Option Nat) (align_up (max 1 1) ALLOC_CHUNK_SIZE) = none :=
  (arena_new_contract (fun _ => some 4096) 1 (by decide)).1

/-! ## `BVec` geometry and the realloc in-place optimisation (C3) -/

/-- Success shape of `alloc_raw`: wherever it lands, the returned pointer
is `base + align_up(offset, align)`, the new offset is that plus the
request, and `base`, `capacity` and the byte memory are untouched. -/
theorem alloc_raw_shape (ok : Bool) (a : Arena) (bytes al : Nat)
    (res : AllocResult) (h : a.alloc_raw ok bytes al = some res) :
    res.ptr = a.base + align_up a.offset al ∧
    res.arena.offset = align_up a.offset al + bytes ∧
    res.arena.base = a.base ∧ res.arena.capacity = a.capacity ∧
    res.arena.mem = a.mem := by
  simp only [Arena.alloc_raw, Arena.alloc_raw_bump] at h
  split at h
  · split at h
    · exact absurd h (by simp)
    · simp only [Option.some.injEq] at h
      subst h
      exact ⟨rfl, rfl, rfl, rfl, rfl⟩
  · simp only [Option.some.injEq] at h
    subst h
    exact ⟨rfl, rfl, rfl, rfl, rfl⟩

/-- Case analysis of a successful growing `realloc` (`old_size < new_size`),
under the origination precondition.  Most recent allocation: pointer
unchanged, no copy, offset strictly advanced.  Otherwise: the fresh
pointer sits at or after the old bump position, exactly `old_size` bytes
are copied into it from the old pointer, and all other memory is
untouched. -/
theorem realloc_grow_cases (ok : Bool) (a : Arena)
    (old_ptr old_size new_size k : Nat) (res : AllocResult)
    (hk : k ≤ 32) (hns : new_size ≤ 2 ^ 32) (hcap : a.capacity ≤ 2 ^ 48)
    (hInv : a.Inv) (hgrow : old_size < new_size)
    (h : a.realloc ok old_ptr old_size new_size (2 ^ k) = some res) :
    (old_ptr + old_size = a.base + a.offset →
      res.ptr = old_ptr ∧ res.len = new_size ∧ res.arena.mem = a.mem ∧
      res.arena.base = a.base ∧ res.arena.capacity = a.capacity ∧
      a.offset < res.arena.offset) ∧
    (old_ptr + old_size ≠ a.base + a.offset →
      old_ptr + old_size ≤ a.base + a.offset →
      a.base + a.offset ≤ res.ptr ∧ res.len = new_size ∧
      (∀ j, j < old_size → res.arena.mem (res.ptr + j) = a.mem (old_ptr + j)) ∧
      (∀ ad, ad < res.ptr ∨ res.ptr + old_size ≤ ad →
        res.arena.mem ad = a.mem ad) ∧
      res.arena.base = a.base ∧ res.arena.capacity = a.capacity) := by
  obtain ⟨h1, h2⟩ := hInv
  have hoff : a.offset ≤ 2 ^ 48 := le_trans h1 (le_trans h2 hcap)
  have hxk : a.offset + 2 ^ k - 1 < USIZE_MOD := by
    have : (2 : Nat) ^ k ≤ 2 ^ 32 := Nat.pow_le_pow_right (by omega) hk
    unfold USIZE_MOD USIZE_BITS
    have : (2:Nat) ^ 48 + 2 ^ 32 < 2 ^ 64 := by norm_num
    omega
  have hbeg_ge := align_up_ge a.offset k (by unfold USIZE_BITS; omega) hxk
  constructor
  · -- most recent allocation: grow in place
    intro hlast
    simp only [Arena.realloc, if_pos hlast, if_pos hgrow] at h
    rcases hr : a.alloc_raw ok (new_size - old_size) (2 ^ k) with _ | r
    · rw [hr] at h
      exact absurd h (by simp)
    · rw [hr] at h
      simp only [Option.some.injEq] at h
      subst h
      have hs := alloc_raw_shape ok a (new_size - old_size) (2 ^ k) r hr
      exact ⟨rfl, rfl, hs.2.2.2.2, hs.2.2.1, hs.2.2.2.1, by
        rw [hs.2.1]; omega⟩
  · -- not the most recent allocation: fresh allocation and copy
    intro hne hle
    simp only [Arena.realloc, if_neg hne, if_pos hgrow] at h
    rcases hr : a.alloc_raw ok new_size (2 ^ k) with _ | r
    · rw [hr] at h
      exact absurd h (by simp)
    · rw [hr] at h
      simp only [Option.some.injEq] at h
      subst h
      have hs := alloc_raw_shape ok a new_size (2 ^ k) r hr
      refine ⟨by rw [hs.1]; omega, rfl, ?_, ?_, hs.2.2.1, hs.2.2.2.1⟩
      · intro j hj
        dsimp only
        rw [if_pos (by omega)]
        congr 1
        omega
      · intro ad had
        dsimp only at had ⊢
        rw [if_neg (by omega), hs.2.2.2.2]

/-- Geometry of a `BVec<T>` from `collections/vec.rs`: raw pointer
(absolute address), initialised length and capacity, both in elements. -/
structure BVecGeom where
  ptr : Nat
  len : Nat
  cap : Nat

/-- `BVec::grow(alloc, cap, add)` running against an arena allocator:
`new_cap = (cap * 2).max(len + add).max(8)`, storage reallocated from
`cap * size_of::<T>()` to `new_cap * size_of::<T>()` bytes, then
`ptr = new_ptr` and `cap = new_ptr.len() / size_of::<T>()`.
`es`/`ea` stand for `size_of::<T>()` and `align_of::<T>()`. -/
def BVec.grow (es ea : Nat) (ok : Bool) (a : Arena) (v : BVecGeom)
    (cap add : Nat) : Option (Arena × BVecGeom) :=
  let new_cap := max (max (cap * 2) (v.len + add)) 8
  match a.realloc ok v.ptr (v.cap * es) (new_cap * es) ea with
  | none => none
  | some r => some (r.arena, { ptr := r.ptr, len := v.len, cap := r.len / es })

/-- C3: `realloc` grows or shrinks in place — returning the same pointer
and moving only the arena's offset — exactly when
`old_ptr + old_size == base + offset` (the most recent allocation);
otherwise growth allocates fresh space and copies exactly `old_size`
bytes.  Consequently `BVec::grow` on storage that is the arena's most
recent allocation keeps the vector's base pointer and advances the
arena's offset, while growing storage that is not the most recent
allocation moves the base pointer and copies the existing bytes. -/
theorem realloc_in_place_contract (ok : Bool) (a : Arena) (k : Nat)
    (hk : k ≤ 32) (hcap : a.capacity ≤ 2 ^ 48) (hInv : a.Inv) :
    (∀ old_ptr old_size new_size res, new_size ≤ 2 ^ 32 →
      old_size < new_size →
      a.base ≤ old_ptr → old_ptr + old_size ≤ a.base + a.offset →
      a.realloc ok old_ptr old_size new_size (2 ^ k) = some res →
      ((res.ptr = old_ptr ∧ res.arena.mem = a.mem) ↔
        old_ptr + old_size = a.base + a.offset)) ∧
    (∀ old_ptr old_size new_size, new_size ≤ old_size →
      old_ptr + old_size = a.base + a.offset →
      a.realloc ok old_ptr old_size new_size (2 ^ k) =
        some { arena := { a with offset := a.offset - old_size + new_size },
               ptr := old_ptr, len := new_size, commits := [] }) ∧
    (∀ es v add a2 v2, 0 < es →
      max (max (v.cap * 2) (v.len + add)) 8 * es ≤ 2 ^ 32 →
      a.base ≤ v.ptr → v.ptr + v.cap * es ≤ a.base + a.offset →
      BVec.grow es (2 ^ k) ok a v v.cap add = some (a2, v2) →
      (v.ptr + v.cap * es = a.base + a.offset →
        v2.ptr = v.ptr ∧ a.offset < a2.offset ∧ a2.mem = a.mem) ∧
      (v.ptr + v.cap * es ≠ a.base + a.offset →
        v2.ptr ≠ v.ptr ∧
        ∀ j, j < v.cap * es → a2.mem (v2.ptr + j) = a.mem (v.ptr + j))) := by
  refine ⟨?_, ?_, ?_⟩
  · intro old_ptr old_size new_size res hns hgrow hge hle h
    have hc := realloc_grow_cases ok a old_ptr old_size new_size k res
      hk hns hcap hInv hgrow h
    constructor
    · rintro ⟨hptr, hmem⟩
      by_contra hne
      obtain ⟨hres_ge, _, _, _, _, _⟩ := hc.2 hne hle
      -- the fresh pointer sits at or after base + offset, strictly after old_ptr
      omega
    · intro hlast
      obtain ⟨hp, _, hm, _⟩ := hc.1 hlast
      exact ⟨hp, hm⟩
  · intro old_ptr old_size new_size hshrink hlast
    simp only [Arena.realloc, if_pos hlast, if_neg (by omega : ¬ new_size > old_size)]
  · intro es v add a2 v2 hes hsz hge hle h
    simp only [BVec.grow] at h
    rcases hr : a.realloc ok v.ptr (v.cap * es)
        (max (max (v.cap * 2) (v.len + add)) 8 * es) (2 ^ k) with _ | r
    · rw [hr] at h
      exact absurd h (by simp)
    · rw [hr] at h
      simp only [Option.some.injEq, Prod.mk.injEq] at h
      obtain ⟨ha2, hv2⟩ := h
      have hgrow : v.cap * es < max (max (v.cap * 2) (v.len + add)) 8 * es := by
        have hcaplt : v.cap < max (max (v.cap * 2) (v.len + add)) 8 := by
          rcases Nat.eq_zero_or_pos v.cap with h0 | h0
          · rw [h0]; omega
          · have : v.cap < v.cap * 2 := by omega
            have h2 : v.cap * 2 ≤ max (max (v.cap * 2) (v.len + add)) 8 :=
              le_trans (le_max_left _ _) (le_max_left _ _)
            omega
        exact (Nat.mul_lt_mul_right hes).mpr hcaplt
      have hc := realloc_grow_cases ok a v.ptr (v.cap * es)
        (max (max (v.cap * 2) (v.len + add)) 8 * es) k r hk hsz hcap hInv hgrow hr
      constructor
      · intro hlast
        obtain ⟨hp, _, hm, _, _, hoff⟩ := hc.1 hlast
        subst ha2 hv2
        exact ⟨hp, hoff, hm⟩
      · intro hne
        obtain ⟨hres_ge, _, hcopy, _, _, _⟩ := hc.2 hne hle
        subst ha2 hv2
        refine ⟨by dsimp only; omega, ?_⟩
        intro j hj
        dsimp only
        exact hcopy j hj

/-- Concrete arena for the C3 witness: 64 KiB committed, offset 16. -/
def arenaW : Arena :=
  { base := 0, capacity := 65536, commit := 65536, offset := 16, mem := fun _ => 0 }

/-- Concrete vector for the C3 witness: its 16 one-byte elements are the
arena's most recent allocation. -/
def vW : BVecGeom := { ptr := 0, len := 16, cap := 16 }

/-- Arena state after the witness grow. -/
def arenaW2 : Arena :=
  { base := 0, capacity := 65536, commit := 65536, offset := 32, mem := fun _ => 0 }

/-- Vector state after the witness grow. -/
def vW2 : BVecGeom := { ptr := 0, len := 16, cap := 32 }

/-- Witness for C3: growing the most recent allocation keeps the pointer. -/
theorem realloc_in_place_contract_witness :
    BVec.grow 1 (2 ^ 0) true arenaW vW vW.cap 1 = some (arenaW2, vW2) ∧
    vW2.ptr = vW.ptr ∧ arenaW.offset < arenaW2.offset := by
  have hg : BVec.grow 1 (2 ^ 0) true arenaW vW vW.cap 1 = some (arenaW2, vW2) := rfl
  have hc := ((realloc_in_place_contract true arenaW 0 (by decide) (by decide)
      ⟨by decide, by decide⟩).2.2 1 vW 1 arenaW2 vW2 (by decide) (by decide)
      (by decide) (by decide) hg).1 (by decide)
  exact ⟨hg, hc.1, hc.2.1⟩

/-! ## Scratch arena pair selection (C4), from `arena/scratch.rs`

The two arenas of `S_SCRATCH` are identified by their addresses.
`scratch_arena(conflict)` computes
`index = ptr_eq(conflict, &S_SCRATCH[0]) as usize` and borrows
`S_SCRATCH[index]`; both the single-threaded and the thread-local variant
use this same pointer test. -/

/-- The index computation of `scratch_arena`: `1` exactly when the
conflict pointer is the first arena of the pair. -/
def scratch_index (pair0 : Nat) (conflict : Option Nat) : Nat :=
  if conflict = some pair0 then 1 else 0

/-- `scratch_arena(conflict)`: the address of the borrowed arena,
`pair i` being the address of `S_SCRATCH[i]`. -/
def scratch_arena (pair : Nat → Nat) (conflict : Option Nat) : Nat :=
  pair (scratch_index (pair 0) conflict)

/-- C4: `scratch_arena` returns the member of the pair that is not the
conflict, deterministically: with distinct pair members,
`scratch_arena(None)` and a nested `scratch_arena(Some(first))` are
backed by different arenas, and a third call passing the second as
conflict is backed by the same arena as the first. -/
theorem scratch_arena_flip_flop (pair : Nat → Nat) (hne : pair 0 ≠ pair 1) :
    scratch_arena pair none ≠
      scratch_arena pair (some (scratch_arena pair none)) ∧
    scratch_arena pair
        (some (scratch_arena pair (some (scratch_arena pair none)))) =
      scratch_arena pair none := by
  have h1 : scratch_arena pair none = pair 0 := by
    simp [scratch_arena, scratch_index]
  have h2 : scratch_arena pair (some (pair 0)) = pair 1 := by
    simp [scratch_arena, scratch_index]
  have h3 : scratch_arena pair (some (pair 1)) = pair 0 := by
    simp only [scratch_arena, scratch_index]
    rw [if_neg]
    intro hcontra
    simp only [Option.some.injEq] at hcontra
    exact hne hcontra.symm
  rw [h1, h2, h3]
  exact ⟨hne, rfl⟩

/-- Witness for C4 with the pair at addresses 100 and 200. -/
theorem scratch_arena_flip_flop_witness :
    scratch_arena (fun i => 100 * (i + 1)) none ≠
      scratch_arena (fun i => 100 * (i + 1))
        (some (scratch_arena (fun i => 100 * (i + 1)) none)) ∧
    scratch_arena (fun i => 100 * (i + 1))
        (some (scratch_arena (fun i => 100 * (i + 1))
          (some (scratch_arena (fun i => 100 * (i + 1)) none)))) =
      scratch_arena (fun i => 100 * (i + 1)) none :=
  scratch_arena_flip_flop (fun i => 100 * (i + 1)) (by decide)

/-! ## Debug borrow tracker (C5), from `arena/debug.rs`

A delegated `debug::Arena` records the value of the underlying arena's
borrow counter right after incrementing it.  `delegate_target` (every
dereference) asserts the recorded value still equals the counter;
`Drop` asserts the same before decrementing.  `none` models the panic of
a failed assertion. -/

/-- A delegated handle: the borrow id recorded at creation. -/
structure DebugHandle where
  borrow : Nat

/-- `debug::Arena::delegated`: increment the counter, record its new
value.  Returns the handle and the new counter. -/
def delegated (borrows : Nat) : DebugHandle × Nat :=
  ({ borrow := borrows + 1 }, borrows + 1)

/-- `debug::Arena::delegate_target` (used by `Deref`): asserts the handle
is still the newest borrow. -/
def delegate_target (h : DebugHandle) (borrows : Nat) : Option Unit :=
  if h.borrow = borrows then some () else none

/-- `Drop for debug::Arena`: asserts the handle is still the newest
borrow (`assert_eq!(*borrow, borrows)`), then decrements the counter. -/
def drop_delegated (h : DebugHandle) (borrows : Nat) : Option Nat :=
  if h.borrow = borrows then some (borrows - 1) else none

/-- C5: after a newer handle is created over the same underlying arena,
dereferencing the older handle panics and dropping it out of order
panics, while the newest handle dereferences fine and in-order drops
restore the counter step by step. -/
theorem debug_borrow_tracker (c : Nat) :
    delegate_target (delegated c).1 (delegated (delegated c).2).2 = none ∧
    drop_delegated (delegated c).1 (delegated (delegated c).2).2 = none ∧
    delegate_target (delegated (delegated c).2).1
      (delegated (delegated c).2).2 = some () ∧
    drop_delegated (delegated (delegated c).2).1
      (delegated (delegated c).2).2 = some (delegated c).2 ∧
    drop_delegated (delegated c).1 (delegated c).2 = some c := by
  simp only [delegated, delegate_target, drop_delegated]
  refine ⟨by rw [if_neg (by omega)], by rw [if_neg (by omega)],
    by simp, by simp, by simp⟩

/-! ## UTF-8 model, for `collections/string.rs`

`BString` content is modelled as the list of its bytes.  The encoder is
`char::encode_utf8` with the bit operations written in their exact
arithmetic form (`x & 0x3F = x % 64`, `x >> 6 = x / 64`,
`0x80 | y = 0x80 + y` for `y < 64`); the decoder is the std
`run_utf8_validation` automaton (also used by `str::from_utf8` and
`Utf8Chunks`), including its maximal-subpart error lengths. -/

/-- A Unicode scalar value: code point below `0x110000`, not a
surrogate. -/
def ScalarValue (c : Nat) : Prop := c < 0x110000 ∧ ¬(0xD800 ≤ c ∧ c ≤ 0xDFFF)

/-- `char::encode_utf8`: the UTF-8 bytes of a scalar value. -/
def encodeChar (c : Nat) : List Nat :=
  if c < 0x80 then [c]
  else if c < 0x800 then [0xC0 + c / 64, 0x80 + c % 64]
  else if c < 0x10000 then
    [0xE0 + c / 4096, 0x80 + c / 64 % 64, 0x80 + c % 64]
  else
    [0xF0 + c / 262144, 0x80 + c / 4096 % 64, 0x80 + c / 64 % 64, 0x80 + c % 64]

/-- Valid UTF-8: a concatenation of encodings of scalar values. -/
inductive Utf8Valid : List Nat → Prop where
  | nil : Utf8Valid []
  | cons (c : Nat) (rest : List Nat) (hc : ScalarValue c)
      (h : Utf8Valid rest) : Utf8Valid (encodeChar c ++ rest)

/-- Result of examining the head of a byte stream: a decoded scalar of a
given width, an invalid maximal subpart of `k` bytes (`err k`,
`1 ≤ k ≤ 3`), or a truncated final sequence (`more`). -/
inductive Utf8Res where
  | ok (c w : Nat)
  | err (k : Nat)
  | more

/-- One step of std's `run_utf8_validation`: decode one UTF-8 sequence at
the head, or report the error length of the maximal subpart (lead-byte
table `utf8_char_width` plus the per-width second-byte ranges). -/
def utf8Step : List Nat → Utf8Res
  | [] => .err 0
  | b0 :: r =>
    if b0 < 0x80 then .ok b0 1
    else if b0 < 0xC2 then .err 1
    else if b0 ≤ 0xDF then
      match r with
      | [] => .more
      | b1 :: _ =>
        if 0x80 ≤ b1 ∧ b1 ≤ 0xBF then
          .ok ((b0 - 0xC0) * 64 + (b1 - 0x80)) 2
        else .err 1
    else if b0 ≤ 0xEF then
      match r with
      | [] => .more
      | b1 :: r1 =>
        if (b0 = 0xE0 ∧ 0xA0 ≤ b1 ∧ b1 ≤ 0xBF) ∨
           (0xE1 ≤ b0 ∧ b0 ≤ 0xEC ∧ 0x80 ≤ b1 ∧ b1 ≤ 0xBF) ∨
           (b0 = 0xED ∧ 0x80 ≤ b1 ∧ b1 ≤ 0x9F) ∨
           (0xEE ≤ b0 ∧ 0x80 ≤ b1 ∧ b1 ≤ 0xBF) then
          match r1 with
          | [] => .more
          | b2 :: _ =>
            if 0x80 ≤ b2 ∧ b2 ≤ 0xBF then
              .ok ((b0 - 0xE0) * 4096 + (b1 - 0x80) * 64 + (b2 - 0x80)) 3
            else .err 2
        else .err 1
    else if b0 ≤ 0xF4 then
      match r with
      | [] => .more
      | b1 :: r1 =>
        if (b0 = 0xF0 ∧ 0x90 ≤ b1 ∧ b1 ≤ 0xBF) ∨
           (0xF1 ≤ b0 ∧ b0 ≤ 0xF3 ∧ 0x80 ≤ b1 ∧ b1 ≤ 0xBF) ∨
           (b0 = 0xF4 ∧ 0x80 ≤ b1 ∧ b1 ≤ 0x8F) then
          match r1 with
          | [] => .more
          | b2 :: r2 =>
            if 0x80 ≤ b2 ∧ b2 ≤ 0xBF then
              match r2 with
              | [] => .more
              | b3 :: _ =>
                if 0x80 ≤ b3 ∧ b3 ≤ 0xBF then
                  .ok ((b0 - 0xF0) * 262144 + (b1 - 0x80) * 4096 +
                       (b2 - 0x80) * 64 + (b3 - 0x80)) 4
                else .err 3
            else .err 2
        else .err 1
    else .err 1

/-- Widths returned by a successful step are between 1 and the length of
the input. -/
theorem utf8Step_ok_width {bs : List Nat} {c w : Nat}
    (h : utf8Step bs = .ok c w) : 1 ≤ w ∧ w ≤ bs.length := by
  rcases bs with _ | ⟨b0, _ | ⟨b1, _ | ⟨b2, _ | ⟨b3, r⟩⟩⟩⟩ <;>
    simp only [utf8Step] at h <;>
    (repeat' split at h) <;> simp_all <;> omega

/-- Error lengths are between 1 and the length of the input. -/
theorem utf8Step_err_len {bs : List Nat} {k : Nat}
    (h : utf8Step bs = .err k) (hne : bs ≠ []) : 1 ≤ k ∧ k ≤ bs.length := by
  rcases bs with _ | ⟨b0, _ | ⟨b1, _ | ⟨b2, _ | ⟨b3, r⟩⟩⟩⟩ <;>
    simp only [utf8Step] at h ⊢ <;>
    (repeat' split at h) <;> simp_all <;> omega

set_option maxRecDepth 4000 in
/-- Decoder soundness: a successful step yields a scalar value whose
encoding is exactly the consumed prefix. -/
theorem utf8Step_ok_sound {bs : List Nat} {c w : Nat}
    (h : utf8Step bs = .ok c w) :
    ScalarValue c ∧ encodeChar c = bs.take w := by
  rcases bs with _ | ⟨b0, _ | ⟨b1, _ | ⟨b2, _ | ⟨b3, r⟩⟩⟩⟩ <;>
    simp only [utf8Step] at h <;>
    (repeat' split at h) <;>
    (try cases h) <;>
    refine ⟨⟨by omega, by omega⟩, ?_⟩ <;>
    simp only [encodeChar] <;>
    (split_ifs <;> first | (exfalso; omega) | (simp_all [List.take]; try omega))

/-- Encoder/decoder agreement: the step function decodes an encoded
scalar back, consuming exactly its encoding, whatever follows. -/
theorem utf8Step_encode (c : Nat) (hc : ScalarValue c) (rest : List Nat) :
    utf8Step (encodeChar c ++ rest) = .ok c (encodeChar c).length := by
  obtain ⟨hlt, hsur⟩ := hc
  simp only [encodeChar]
  split_ifs with h1 h2 h3
  · simp only [List.cons_append, List.nil_append, utf8Step, List.length_cons,
      List.length_nil]
    rw [if_pos h1]
  · simp only [List.cons_append, List.nil_append, utf8Step, List.length_cons,
      List.length_nil]
    rw [if_neg (by omega), if_neg (by omega), if_pos (by omega),
      if_pos (by omega)]
    simp only [Utf8Res.ok.injEq, and_true, true_and]
    omega
  · simp only [List.cons_append, List.nil_append, utf8Step, List.length_cons,
      List.length_nil]
    rw [if_neg (by omega), if_neg (by omega), if_neg (by omega),
      if_pos (by omega), if_pos (by omega), if_pos (by omega)]
    simp only [Utf8Res.ok.injEq, and_true, true_and]
    omega
  · simp only [List.cons_append, List.nil_append, utf8Step, List.length_cons,
      List.length_nil]
    rw [if_neg (by omega), if_neg (by omega), if_neg (by omega),
      if_neg (by omega), if_pos (by omega), if_pos (by omega),
      if_pos (by omega), if_pos (by omega)]
    simp only [Utf8Res.ok.injEq, and_true, true_and]
    omega

/-- The UTF-8 validation loop of `str::from_utf8` (used by
`BString::from_utf8`): accept exactly when every step decodes. -/
def isValidUtf8 : List Nat → Bool
  | [] => true
  | b :: r =>
    match h : utf8Step (b :: r) with
    | .ok _ w => isValidUtf8 ((b :: r).drop w)
    | .err _ => false
    | .more => false
termination_by bs => bs.length
decreasing_by
  have := utf8Step_ok_width h
  simp only [List.length_drop]
  simp only [List.length_cons] at this ⊢
  omega

/-- The chunk loop of std's `Utf8Chunks` as consumed by
`BString::from_utf8_lossy`: each yielded pair is a run of valid bytes
followed by a maximal invalid subpart; only the final chunk may have an
empty invalid part. -/
def utf8ChunksGo : List Nat → List Nat → List (List Nat × List Nat)
  | [], acc => if acc = [] then [] else [(acc, [])]
  | b :: r, acc =>
    match h : utf8Step (b :: r) with
    | .ok _ w => utf8ChunksGo ((b :: r).drop w) (acc ++ (b :: r).take w)
    | .err k => (acc, (b :: r).take k) :: utf8ChunksGo ((b :: r).drop k) []
    | .more => [(acc, b :: r)]
termination_by bs _ => bs.length
decreasing_by
  · have := utf8Step_ok_width h
    simp only [List.length_drop]
    simp only [List.length_cons] at this ⊢
    omega
  · have := utf8Step_err_len h (by simp)
    simp only [List.length_drop]
    simp only [List.length_cons] at this ⊢
    omega

/-- `vec.utf8_chunks()`. -/
def utf8Chunks (bs : List Nat) : List (List Nat × List Nat) :=
  utf8ChunksGo bs []

theorem utf8ChunksGo_nil (acc : List Nat) :
    utf8ChunksGo [] acc = if acc = [] then [] else [(acc, [])] := by
  rw [utf8ChunksGo]

theorem utf8ChunksGo_ok {b : Nat} {r : List Nat} {c w : Nat}
    (hs : utf8Step (b :: r) = .ok c w) (acc : List Nat) :
    utf8ChunksGo (b :: r) acc =
      utf8ChunksGo ((b :: r).drop w) (acc ++ (b :: r).take w) := by
  rw [utf8ChunksGo]
  split
  · rename_i c2 w2 heq
    rw [hs] at heq
    cases heq
    rfl
  · rename_i k heq
    rw [hs] at heq
    cases heq
  · rename_i heq
    rw [hs] at heq
    cases heq

theorem utf8ChunksGo_err {b : Nat} {r : List Nat} {k : Nat}
    (hs : utf8Step (b :: r) = .err k) (acc : List Nat) :
    utf8ChunksGo (b :: r) acc =
      (acc, (b :: r).take k) :: utf8ChunksGo ((b :: r).drop k) [] := by
  rw [utf8ChunksGo]
  split
  · rename_i c2 w2 heq
    rw [hs] at heq
    cases heq
  · rename_i k2 heq
    rw [hs] at heq
    cases heq
    rfl
  · rename_i heq
    rw [hs] at heq
    cases heq

theorem utf8ChunksGo_more {b : Nat} {r : List Nat}
    (hs : utf8Step (b :: r) = .more) (acc : List Nat) :
    utf8ChunksGo (b :: r) acc = [(acc, b :: r)] := by
  rw [utf8ChunksGo]
  split
  · rename_i c2 w2 heq
    rw [hs] at heq
    cases heq
  · rename_i k2 heq
    rw [hs] at heq
    cases heq
  · rfl

theorem isValidUtf8_ok {b : Nat} {r : List Nat} {c w : Nat}
    (hs : utf8Step (b :: r) = .ok c w) :
    isValidUtf8 (b :: r) = isValidUtf8 ((b :: r).drop w) := by
  rw [isValidUtf8]
  split
  · rename_i c2 w2 heq
    rw [hs] at heq
    cases heq
    rfl
  · rename_i k heq
    rw [hs] at heq
    cases heq
  · rename_i heq
    rw [hs] at heq
    cases heq

theorem isValidUtf8_err {b : Nat} {r : List Nat} {k : Nat}
    (hs : utf8Step (b :: r) = .err k) : isValidUtf8 (b :: r) = false := by
  rw [isValidUtf8]
  split
  · rename_i c2 w2 heq
    rw [hs] at heq
    cases heq
  · rfl
  · rfl

theorem isValidUtf8_more {b : Nat} {r : List Nat}
    (hs : utf8Step (b :: r) = .more) : isValidUtf8 (b :: r) = false := by
  rw [isValidUtf8]
  split
  · rename_i c2 w2 heq
    rw [hs] at heq
    cases heq
  · rfl
  · rfl

/-- The encoding of a scalar value is never empty. -/
theorem encodeChar_ne_nil (c : Nat) : encodeChar c ≠ [] := by
  simp only [encodeChar]
  split_ifs <;> simp

/-- Accepted byte lists are valid UTF-8 (soundness of the validator). -/
theorem isValidUtf8_sound (bs : List Nat) (h : isValidUtf8 bs = true) :
    Utf8Valid bs := by
  have H : ∀ n bs, bs.length = n → isValidUtf8 bs = true → Utf8Valid bs := by
    intro n
    induction n using Nat.strong_induction_on with
    | _ n ih =>
      intro bs hn h
      rcases bs with _ | ⟨b, r⟩
      · exact Utf8Valid.nil
      · rcases hs : utf8Step (b :: r) with ⟨c, w⟩ | k | _
        · have hsound := utf8Step_ok_sound hs
          have hw := utf8Step_ok_width hs
          rw [isValidUtf8_ok hs] at h
          have hval : Utf8Valid ((b :: r).drop w) := by
            refine ih ((b :: r).drop w).length ?_ _ rfl h
            subst hn
            simp only [List.length_drop]
            simp only [List.length_cons] at hw ⊢
            omega
          have hdecomp : b :: r = encodeChar c ++ (b :: r).drop w := by
            rw [hsound.2, List.take_append_drop]
          rw [hdecomp]
          exact Utf8Valid.cons c _ hsound.1 hval
        · rw [isValidUtf8_err hs] at h
          exact absurd h (by simp)
        · rw [isValidUtf8_more hs] at h
          exact absurd h (by simp)
  exact H bs.length bs rfl h

/-- Concatenation preserves UTF-8 validity. -/
theorem Utf8Valid.append {a b : List Nat} (ha : Utf8Valid a)
    (hb : Utf8Valid b) : Utf8Valid (a ++ b) := by
  induction ha with
  | nil => simpa
  | cons c rest hc h ih =>
    rw [List.append_assoc]
    exact Utf8Valid.cons c _ hc ih

/-- The chunker on fully valid input yields at most one chunk, all of it
valid, with no invalid part. -/
theorem utf8ChunksGo_valid {bs : List Nat} (h : Utf8Valid bs) :
    ∀ acc, utf8ChunksGo bs acc =
      if acc ++ bs = [] then [] else [(acc ++ bs, [])] := by
  induction h with
  | nil =>
    intro acc
    rw [utf8ChunksGo_nil]
    simp
  | cons c rest hc hr ih =>
    intro acc
    have hstep := utf8Step_encode c hc rest
    have hne := encodeChar_ne_nil c
    obtain ⟨e0, et, henc⟩ : ∃ e0 et, encodeChar c = e0 :: et := by
      rcases hl : encodeChar c with _ | ⟨x, xs⟩
      · exact absurd hl hne
      · exact ⟨x, xs, rfl⟩
    have hstep2 : utf8Step (e0 :: (et ++ rest)) = .ok c (encodeChar c).length := by
      rw [← List.cons_append, ← henc]
      exact hstep
    calc utf8ChunksGo (encodeChar c ++ rest) acc
        = utf8ChunksGo (e0 :: (et ++ rest)) acc := by
          rw [henc, List.cons_append]
      _ = utf8ChunksGo ((e0 :: (et ++ rest)).drop (encodeChar c).length)
            (acc ++ (e0 :: (et ++ rest)).take (encodeChar c).length) :=
          utf8ChunksGo_ok hstep2 acc
      _ = utf8ChunksGo rest (acc ++ encodeChar c) := by
          rw [show e0 :: (et ++ rest) = encodeChar c ++ rest by
            rw [henc, List.cons_append]]
          rw [List.take_left, List.drop_left]
      _ = if (acc ++ encodeChar c) ++ rest = [] then []
          else [((acc ++ encodeChar c) ++ rest, [])] := ih _
      _ = if acc ++ (encodeChar c ++ rest) = [] then []
          else [(acc ++ (encodeChar c ++ rest), [])] := by
          rw [List.append_assoc]

/-- A byte in `0x80..0xC1` or `0xF5..` can never begin a sequence: the
step function reports a one-byte maximal subpart. -/
theorem utf8Step_bad_byte {b : Nat} (hb : (0x80 ≤ b ∧ b < 0xC2) ∨ 0xF5 ≤ b)
    (r : List Nat) : utf8Step (b :: r) = .err 1 := by
  simp only [utf8Step]
  rcases hb with ⟨h1, h2⟩ | h1
  · rw [if_neg (by omega), if_pos (by omega)]
  · rw [if_neg (by omega), if_neg (by omega), if_neg (by omega),
      if_neg (by omega), if_neg (by omega)]

/-- Chunking a valid prefix, one standalone invalid byte, then any tail:
the first chunk is exactly the prefix with the bad byte as its invalid
part, and chunking restarts at the tail. -/
theorem utf8ChunksGo_single_err {pre : List Nat} (hpre : Utf8Valid pre)
    {b : Nat} (hb : (0x80 ≤ b ∧ b < 0xC2) ∨ 0xF5 ≤ b) (post : List Nat) :
    ∀ acc, utf8ChunksGo (pre ++ b :: post) acc =
      (acc ++ pre, [b]) :: utf8ChunksGo post [] := by
  induction hpre with
  | nil =>
    intro acc
    rw [List.nil_append, utf8ChunksGo_err (utf8Step_bad_byte hb post)]
    simp
  | cons c rest hc hr ih =>
    intro acc
    have hstep := utf8Step_encode c hc (rest ++ b :: post)
    have hne := encodeChar_ne_nil c
    obtain ⟨e0, et, henc⟩ : ∃ e0 et, encodeChar c = e0 :: et := by
      rcases hl : encodeChar c with _ | ⟨x, xs⟩
      · exact absurd hl hne
      · exact ⟨x, xs, rfl⟩
    have hstep2 : utf8Step (e0 :: (et ++ (rest ++ b :: post))) =
        .ok c (encodeChar c).length := by
      rw [← List.cons_append, ← henc]
      exact hstep
    calc utf8ChunksGo ((encodeChar c ++ rest) ++ b :: post) acc
        = utf8ChunksGo (e0 :: (et ++ (rest ++ b :: post))) acc := by
          rw [List.append_assoc, henc, List.cons_append]
      _ = utf8ChunksGo ((e0 :: (et ++ (rest ++ b :: post))).drop (encodeChar c).length)
            (acc ++ (e0 :: (et ++ (rest ++ b :: post))).take (encodeChar c).length) :=
          utf8ChunksGo_ok hstep2 acc
      _ = utf8ChunksGo (rest ++ b :: post) (acc ++ encodeChar c) := by
          rw [show e0 :: (et ++ (rest ++ b :: post)) =
              encodeChar c ++ (rest ++ b :: post) by rw [henc, List.cons_append]]
          rw [List.take_left, List.drop_left]
      _ = ((acc ++ encodeChar c) ++ rest, [b]) :: utf8ChunksGo post [] := ih _
      _ = (acc ++ (encodeChar c ++ rest), [b]) :: utf8ChunksGo post [] := by
          rw [List.append_assoc]

/-! ## `BString::from_utf8_lossy` (C8) -/

/-- A `BVec<u8>`: backing pointer identity plus byte content.  The pointer
lets zero-copy behaviour be observed. -/
structure BVecBytes where
  ptr : Nat
  data : List Nat

/-- The replacement loop of `from_utf8_lossy`: for each chunk push the
valid part, then `U+FFFD` (bytes `EF BF BD`) whenever the invalid part is
non-empty. -/
def lossyChunks : List (List Nat × List Nat) → List Nat
  | [] => []
  | (v, i) :: rest =>
    v ++ (if i = [] then [] else [0xEF, 0xBF, 0xBD]) ++ lossyChunks rest

/-- `BString::from_utf8_lossy(alloc, vec)`: if the first chunk has no
invalid part (input empty or entirely valid) the vec is returned as-is —
same backing pointer, no copy; otherwise a fresh buffer (at `fresh`) is
filled chunk by chunk with U+FFFD substitutions. -/
def from_utf8_lossy (fresh : Nat) (v : BVecBytes) : BVecBytes :=
  match utf8Chunks v.data with
  | [] => v
  | (val, inv) :: rest =>
    if inv = [] then v
    else { ptr := fresh, data := lossyChunks ((val, inv) :: rest) }

/-- `[0xEF, 0xBF, 0xBD]` is the encoding of U+FFFD, hence valid UTF-8. -/
theorem fffd_valid : Utf8Valid [0xEF, 0xBF, 0xBD] := by
  have h := Utf8Valid.cons 0xFFFD [] (by exact ⟨by omega, by omega⟩) Utf8Valid.nil
  have he : encodeChar 0xFFFD ++ [] = [0xEF, 0xBF, 0xBD] := by decide
  rwa [he] at h

/-- C8: `from_utf8_lossy` on an entirely valid byte vector returns the
vector itself — same backing pointer, same bytes, no copy; on an input
that is a valid prefix, one standalone invalid byte, and a valid suffix,
it returns a fresh valid-UTF-8 buffer equal to the input with exactly
that byte replaced by U+FFFD. -/
theorem from_utf8_lossy_contract (fresh : Nat) (v : BVecBytes) :
    (Utf8Valid v.data → from_utf8_lossy fresh v = v) ∧
    (∀ pre b post, v.data = pre ++ b :: post → Utf8Valid pre →
      Utf8Valid post → ((0x80 ≤ b ∧ b < 0xC2) ∨ 0xF5 ≤ b) →
      (from_utf8_lossy fresh v).data = pre ++ [0xEF, 0xBF, 0xBD] ++ post ∧
      (from_utf8_lossy fresh v).ptr = fresh ∧
      Utf8Valid ((from_utf8_lossy fresh v).data)) := by
  constructor
  · intro hv
    simp only [from_utf8_lossy, utf8Chunks, utf8ChunksGo_valid hv [],
      List.nil_append]
    rcases hd : v.data with _ | ⟨x, xs⟩
    · simp
    · simp
  · intro pre b post hdata hpre hpost hb
    have hchunks : utf8Chunks v.data =
        (pre, [b]) :: utf8ChunksGo post [] := by
      rw [hdata, utf8Chunks, utf8ChunksGo_single_err hpre hb post []]
      rw [List.nil_append]
    have htail : lossyChunks (utf8ChunksGo post []) = post := by
      rw [utf8ChunksGo_valid hpost [], List.nil_append]
      rcases hp : post with _ | ⟨x, xs⟩
      · simp [lossyChunks]
      · rw [if_neg (by simp)]
        simp [lossyChunks]
    have hres : from_utf8_lossy fresh v =
        { ptr := fresh, data := lossyChunks ((pre, [b]) :: utf8ChunksGo post []) } := by
      simp only [from_utf8_lossy, hchunks]
      rw [if_neg (by simp)]
    have hdata2 : (from_utf8_lossy fresh v).data =
        pre ++ [0xEF, 0xBF, 0xBD] ++ post := by
      rw [hres]
      show lossyChunks ((pre, [b]) :: utf8ChunksGo post []) = _
      simp only [lossyChunks, htail]
      rw [if_neg (by simp)]
    refine ⟨hdata2, by rw [hres], ?_⟩
    rw [hdata2]
    exact Utf8Valid.append (Utf8Valid.append hpre fffd_valid) hpost

/-- Witness input for C8: the bytes `"ab" ++ [0xFF] ++ "c"`. -/
def lossyW : BVecBytes := { ptr := 7, data := [97, 98, 0xFF, 99] }

/-- Witness for C8: one invalid byte is replaced by U+FFFD. -/
theorem from_utf8_lossy_contract_witness :
    (from_utf8_lossy 11 lossyW).data =
      [97, 98] ++ [0xEF, 0xBF, 0xBD] ++ [99] ∧
    (from_utf8_lossy 11 lossyW).ptr = 11 ∧
    Utf8Valid ((from_utf8_lossy 11 lossyW).data) := by
  have hpre : Utf8Valid [97, 98] := by
    have h1 := Utf8Valid.cons 98 [] (by exact ⟨by omega, by omega⟩) Utf8Valid.nil
    have h2 := Utf8Valid.cons 97 (encodeChar 98 ++ []) (by exact ⟨by omega, by omega⟩) h1
    have he : encodeChar 97 ++ (encodeChar 98 ++ []) = [97, 98] := by decide
    rwa [he] at h2
  have hpost : Utf8Valid [99] := by
    have h1 := Utf8Valid.cons 99 [] (by exact ⟨by omega, by omega⟩) Utf8Valid.nil
    have he : encodeChar 99 ++ [] = [99] := by decide
    rwa [he] at h1
  exact (from_utf8_lossy_contract 11 lossyW).2 [97, 98] 0xFF [99] rfl
    hpre hpost (by omega)

/-! ## `push_repeat` (C9), from `collections/string.rs` and
`collections/vec.rs`, at the byte level -/

/-- `BVec::push_repeat` for bytes: append `total_copies` copies of
`value` (the `memset` path; the early return for zero copies is
explicit in the source). -/
def bvec_push_repeat (bs : List Nat) (value n : Nat) : List Nat :=
  if n = 0 then bs else bs ++ List.replicate n value

/-- `BVec::extend_from_within(src.start..src.end)` at the byte level:
`end' = min end len`, `beg = min start end'`, append `bs[beg..end')`. -/
def bvec_extend_from_within (bs : List Nat) (start e : Nat) : List Nat :=
  let e2 := min e bs.length
  let beg := min start e2
  bs ++ ((bs.drop beg).take (e2 - beg))

/-- The doubling loop of `BString::push_repeat`:
`while len != final { extend_from_within(initial..min(final - len + initial, len)) }`.
The guard is strengthened to `initial < len < final` so the function is
total; at every reachable entry (`len = initial + |utf8| ≤ final`,
`|utf8| ≥ 1`) the two guards agree. -/
def push_repeat_go (initial final : Nat) (bs : List Nat) : List Nat :=
  if h : initial < bs.length ∧ bs.length < final then
    push_repeat_go initial final
      (bvec_extend_from_within bs initial
        (min (final - bs.length + initial) bs.length))
  else bs
termination_by final - bs.length
decreasing_by
  simp only [bvec_extend_from_within, List.length_append, List.length_take,
    List.length_drop]
  omega

/-- `BString::push_repeat(alloc, ch, total_copies)`: early return on zero
copies; ASCII characters via the raw byte fill; multi-byte characters by
appending one encoded copy and then doubling the written suffix. -/
def push_repeat (bs : List Nat) (ch n : Nat) : List Nat :=
  if n = 0 then bs
  else if ch < 0x80 then bvec_push_repeat bs ch n
  else
    let utf8 := encodeChar ch
    let initial_len := bs.length
    let added_len := utf8.length * n
    let final_len := initial_len + added_len
    push_repeat_go initial_len final_len (bs ++ utf8)

/-- `n` concatenated copies of a list. -/
def joinRep (n : Nat) (l : List Nat) : List Nat :=
  (List.replicate n l).flatten

theorem joinRep_zero (l : List Nat) : joinRep 0 l = [] := rfl

theorem joinRep_succ (n : Nat) (l : List Nat) :
    joinRep (n + 1) l = l ++ joinRep n l := by
  simp [joinRep, List.replicate_succ]

theorem joinRep_length (n : Nat) (l : List Nat) :
    (joinRep n l).length = n * l.length := by
  induction n with
  | zero => simp [joinRep_zero]
  | succ n ih =>
    rw [joinRep_succ, List.length_append, ih]
    ring

theorem joinRep_add (a b : Nat) (l : List Nat) :
    joinRep (a + b) l = joinRep a l ++ joinRep b l := by
  induction a with
  | zero => simp [joinRep_zero]
  | succ a ih =>
    rw [show a + 1 + b = (a + b) + 1 by omega, joinRep_succ, joinRep_succ,
      ih, List.append_assoc]

theorem joinRep_take (k m : Nat) (l : List Nat) (hk : k ≤ m) :
    (joinRep m l).take (k * l.length) = joinRep k l := by
  have hdecomp : joinRep m l = joinRep k l ++ joinRep (m - k) l := by
    rw [← joinRep_add]
    congr 1
    omega
  rw [hdecomp]
  exact List.take_left' (joinRep_length k l)

theorem joinRep_singleton (n x : Nat) :
    joinRep n [x] = List.replicate n x := by
  induction n with
  | zero => rfl
  | succ n ih => rw [joinRep_succ, ih, List.replicate_succ, List.singleton_append]

theorem min_mul_right (a b L : Nat) : min a b * L = min (a * L) (b * L) := by
  rcases Nat.le_total a b with h | h
  · rw [Nat.min_eq_left h, Nat.min_eq_left (Nat.mul_le_mul_right L h)]
  · rw [Nat.min_eq_right h, Nat.min_eq_right (Nat.mul_le_mul_right L h)]

/-- Once the target length is reached the loop exits. -/
theorem push_repeat_go_done (initial final : Nat) (bs : List Nat)
    (h : bs.length = final) : push_repeat_go initial final bs = bs := by
  rw [push_repeat_go, dif_neg]
  omega

/-- One iteration of the doubling loop turns `m` written copies into
`m + min (n - m) m` copies. -/
theorem push_repeat_go_step (bs0 enc : List Nat) (henc : enc ≠ [])
    (n m : Nat) (h1 : 1 ≤ m) (hmn : m < n) :
    bvec_extend_from_within (bs0 ++ joinRep m enc) bs0.length
      (min (bs0.length + enc.length * n - (bs0 ++ joinRep m enc).length +
        bs0.length) (bs0 ++ joinRep m enc).length) =
    bs0 ++ joinRep (m + min (n - m) m) enc := by
  have hL : 1 ≤ enc.length := List.length_pos.mpr henc
  have hlen : (bs0 ++ joinRep m enc).length = bs0.length + m * enc.length := by
    rw [List.length_append, joinRep_length]
  have hnm : (n - m) * enc.length = n * enc.length - m * enc.length :=
    Nat.sub_mul n m enc.length
  have hcomm : enc.length * n = n * enc.length := Nat.mul_comm _ _
  have hkval : min (n - m) m * enc.length =
      min ((n - m) * enc.length) (m * enc.length) := min_mul_right _ _ _
  simp only [bvec_extend_from_within, hlen]
  have he2 : min (min (bs0.length + enc.length * n -
      (bs0.length + m * enc.length) + bs0.length)
      (bs0.length + m * enc.length)) (bs0.length + m * enc.length) =
      bs0.length + min (n - m) m * enc.length := by
    omega
  rw [he2]
  have hbeg : min bs0.length (bs0.length + min (n - m) m * enc.length) =
      bs0.length := by
    omega
  rw [hbeg]
  rw [List.drop_left]
  rw [Nat.add_sub_cancel_left]
  rw [joinRep_take (min (n - m) m) m enc (by omega)]
  rw [List.append_assoc, ← joinRep_add]

/-- The doubling loop, entered with `m ≥ 1` copies already written,
finishes with exactly `n` copies. -/
theorem push_repeat_go_spec (enc bs0 : List Nat) (henc : enc ≠ [])
    (n : Nat) :
    ∀ fuel m, 1 ≤ m → m ≤ n → n - m ≤ fuel →
      push_repeat_go bs0.length (bs0.length + enc.length * n)
        (bs0 ++ joinRep m enc) = bs0 ++ joinRep n enc := by
  have hfin : ∀ m, m = n →
      push_repeat_go bs0.length (bs0.length + enc.length * n)
        (bs0 ++ joinRep m enc) = bs0 ++ joinRep n enc := by
    intro m hm
    subst hm
    exact push_repeat_go_done _ _ _ (by
      rw [List.length_append, joinRep_length]; ring)
  intro fuel
  induction fuel with
  | zero =>
    intro m h1 h2 h3
    exact hfin m (by omega)
  | succ fuel ih =>
    intro m h1 h2 h3
    by_cases hmn : m = n
    · exact hfin m hmn
    · have hL : 1 ≤ enc.length := List.length_pos.mpr henc
      have hlen : (bs0 ++ joinRep m enc).length =
          bs0.length + m * enc.length := by
        rw [List.length_append, joinRep_length]
      have hm1 : 1 ≤ m * enc.length := Nat.mul_le_mul h1 hL
      have hml : m * enc.length < n * enc.length :=
        (Nat.mul_lt_mul_right (by omega)).mpr (by omega)
      have hcomm : enc.length * n = n * enc.length := Nat.mul_comm _ _
      rw [push_repeat_go, dif_pos (by omega)]
      rw [push_repeat_go_step bs0 enc henc n m h1 (by omega)]
      exact ih (m + min (n - m) m) (by omega) (by omega) (by omega)

/-- `push_repeat` appends exactly `n` copies of the character's
encoding (shared helper for the `push_repeat` claims). -/
theorem push_repeat_eq (bs : List Nat) (ch n : Nat) (hch : ScalarValue ch) :
    push_repeat bs ch n = bs ++ joinRep n (encodeChar ch) := by
  by_cases hn : n = 0
  · subst hn
    simp [push_repeat, joinRep_zero]
  · simp only [push_repeat, if_neg hn]
    by_cases hascii : ch < 0x80
    · rw [if_pos hascii]
      simp only [bvec_push_repeat, if_neg hn]
      have henc : encodeChar ch = [ch] := by
        simp [encodeChar, hascii]
      rw [henc, joinRep_singleton]
    · rw [if_neg hascii]
      show push_repeat_go bs.length (bs.length + (encodeChar ch).length * n)
        (bs ++ encodeChar ch) = _
      have hstart : bs ++ encodeChar ch = bs ++ joinRep 1 (encodeChar ch) := by
        rw [joinRep_succ, joinRep_zero, List.append_nil]
      rw [hstart]
      exact push_repeat_go_spec (encodeChar ch) bs (encodeChar_ne_nil ch) n
        (n - 1) 1 (by omega) (by omega) (by omega)

/-- Repeated encodings of a scalar are valid UTF-8. -/
theorem joinRep_encode_valid (ch : Nat) (hch : ScalarValue ch) (n : Nat) :
    Utf8Valid (joinRep n (encodeChar ch)) := by
  induction n with
  | zero => exact Utf8Valid.nil
  | succ n ih =>
    rw [joinRep_succ]
    exact Utf8Valid.cons ch _ hch ih

/-- C9: `push_repeat` appends exactly the UTF-8 encoding of the character
repeated `n` times (ASCII via a raw fill, multi-byte via the doubling
loop), and in particular three copies of U+1F60A (😊) form a 12-byte
valid suffix. -/
theorem push_repeat_contract :
    (∀ bs ch n, ScalarValue ch →
      push_repeat bs ch n = bs ++ joinRep n (encodeChar ch)) ∧
    (∀ bs, push_repeat bs 0x1F60A 3 = bs ++ joinRep 3 (encodeChar 0x1F60A) ∧
      (joinRep 3 (encodeChar 0x1F60A)).length = 12 ∧
      (encodeChar 0x1F60A).length = 4 ∧
      Utf8Valid (joinRep 3 (encodeChar 0x1F60A))) := by
  refine ⟨fun bs ch n hch => push_repeat_eq bs ch n hch, ?_⟩
  intro bs
  have hsc : ScalarValue 0x1F60A := ⟨by omega, by omega⟩
  refine ⟨push_repeat_eq bs 0x1F60A 3 hsc, by decide, by decide, ?_⟩
  have h3 : Utf8Valid (encodeChar 0x1F60A ++
      (encodeChar 0x1F60A ++ (encodeChar 0x1F60A ++ []))) :=
    Utf8Valid.cons _ _ hsc (Utf8Valid.cons _ _ hsc
      (Utf8Valid.cons _ _ hsc Utf8Valid.nil))
  have heq : joinRep 3 (encodeChar 0x1F60A) =
      encodeChar 0x1F60A ++ (encodeChar 0x1F60A ++ (encodeChar 0x1F60A ++ [])) := by
    simp [joinRep, List.replicate]
  rwa [heq]

/-- Witness for C9: two copies of an ASCII character. -/
theorem push_repeat_contract_witness :
    push_repeat [] 65 2 = [] ++ joinRep 2 (encodeChar 65) :=
  push_repeat_contract.1 [] 65 2 ⟨by omega, by omega⟩

/-! ## Character boundaries and the remaining `BString` operations (C7) -/

/-- `str::is_char_boundary(index)`: true at 0, at the total length, and at
any byte that is not a UTF-8 continuation byte (`(b as i8) >= -0x40`). -/
def isCharBoundary (bs : List Nat) (i : Nat) : Bool :=
  if i = 0 then true
  else
    match bs[i]? with
    | some b => decide (b < 0x80 ∨ 0xC0 ≤ b)
    | none => decide (i = bs.length)

/-- The first byte of any encoding is not a continuation byte. -/
theorem encodeChar_head (c : Nat) :
    ∃ b0 t, encodeChar c = b0 :: t ∧ (b0 < 0x80 ∨ 0xC0 ≤ b0) := by
  simp only [encodeChar]
  split_ifs with h1 h2 h3
  · exact ⟨c, [], rfl, Or.inl h1⟩
  · exact ⟨_, _, rfl, Or.inr (by omega)⟩
  · exact ⟨_, _, rfl, Or.inr (by omega)⟩
  · exact ⟨_, _, rfl, Or.inr (by omega)⟩

/-- Every byte of an encoding after the first is a continuation byte. -/
theorem encodeChar_tail_cont (c j : Nat) (h1 : 1 ≤ j)
    (h2 : j < (encodeChar c).length) :
    ∃ b, (encodeChar c)[j]? = some b ∧ 0x80 ≤ b ∧ b < 0xC0 := by
  simp only [encodeChar] at h2 ⊢
  split_ifs at h2 ⊢ with ha hb hc
  · simp at h2
    omega
  · simp only [List.length_cons, List.length_nil] at h2
    have : j = 1 := by omega
    subst this
    refine ⟨0x80 + c % 64, by simp, by omega, by omega⟩
  · simp only [List.length_cons, List.length_nil] at h2
    rcases j with _ | ⟨_ | ⟨_ | j⟩⟩
    · omega
    · exact ⟨0x80 + c / 64 % 64, by simp, by omega, by omega⟩
    · exact ⟨0x80 + c % 64, by simp, by omega, by omega⟩
    · omega
  · simp only [List.length_cons, List.length_nil] at h2
    rcases j with _ | ⟨_ | ⟨_ | ⟨_ | j⟩⟩⟩
    · omega
    · exact ⟨0x80 + c / 4096 % 64, by simp, by omega, by omega⟩
    · exact ⟨0x80 + c / 64 % 64, by simp, by omega, by omega⟩
    · exact ⟨0x80 + c % 64, by simp, by omega, by omega⟩
    · omega

/-- Splitting a valid string at a character boundary yields two valid
strings. -/
theorem utf8Valid_boundary_split {bs : List Nat} (h : Utf8Valid bs) :
    ∀ i, isCharBoundary bs i = true →
      Utf8Valid (bs.take i) ∧ Utf8Valid (bs.drop i) := by
  induction h with
  | nil =>
    intro i hb
    constructor
    · rw [List.take_nil]
      exact Utf8Valid.nil
    · rw [List.drop_nil]
      exact Utf8Valid.nil
  | cons c rest hc hr ih =>
    intro i hb
    by_cases hi0 : i = 0
    · subst hi0
      exact ⟨Utf8Valid.nil, Utf8Valid.cons c _ hc hr⟩
    · by_cases hiL : (encodeChar c).length ≤ i
      · have hb2 : isCharBoundary rest (i - (encodeChar c).length) = true := by
          by_cases hz : i - (encodeChar c).length = 0
          · simp [isCharBoundary, hz]
          · rw [isCharBoundary, if_neg hi0,
              List.getElem?_append_right hiL] at hb
            rw [isCharBoundary, if_neg hz]
            rcases hg : rest[i - (encodeChar c).length]? with _ | b
            · rw [hg] at hb
              simp only [List.length_append] at hb
              simp only [decide_eq_true_eq] at hb ⊢
              omega
            · rw [hg] at hb
              exact hb
        obtain ⟨h1, h2⟩ := ih _ hb2
        constructor
        · rw [List.take_append_eq_append_take,
            List.take_of_length_le hiL]
          exact Utf8Valid.cons c _ hc h1
        · rw [List.drop_append_eq_append_drop,
            List.drop_eq_nil_of_le hiL, List.nil_append]
          exact h2
      · exfalso
        obtain ⟨b, hgb, hc1, hc2⟩ := encodeChar_tail_cont c i (by omega)
          (by omega)
        rw [isCharBoundary, if_neg hi0,
          List.getElem?_append_left (by omega), hgb] at hb
        simp only [decide_eq_true_eq] at hb
        omega

/-- Inversion: peeling the leading character off a valid string leaves a
valid string (UTF-8 is a prefix code, so the decomposition is unique). -/
theorem utf8Valid_inv {bs : List Nat} (h : Utf8Valid bs) (c : Nat)
    (s : List Nat) (hc : ScalarValue c) (heq : bs = encodeChar c ++ s) :
    Utf8Valid s := by
  cases h with
  | nil =>
    exact absurd heq.symm (by simp [encodeChar_ne_nil c])
  | cons c2 rest hc2 hrest =>
    have s1 := utf8Step_encode c2 hc2 rest
    have s2 := utf8Step_encode c hc s
    rw [heq] at s1
    rw [s2] at s1
    cases s1
    have hsr := List.append_inj_right heq.symm rfl
    rw [hsr]
    exact hrest

/-- Cancellation: a valid prefix of a valid string leaves a valid tail. -/
theorem utf8Valid_append_cancel {a t : List Nat} (ha : Utf8Valid a) :
    Utf8Valid (a ++ t) → Utf8Valid t := by
  induction ha with
  | nil =>
    intro h
    simpa using h
  | cons c rest hc hr ih =>
    intro h
    rw [List.append_assoc] at h
    exact ih (utf8Valid_inv h c (rest ++ t) hc rfl)

/-- A position holding a non-continuation byte is a character boundary. -/
theorem isCharBoundary_of_byte {bs : List Nat} {i b : Nat}
    (hg : bs[i]? = some b) (hb : b < 0x80 ∨ 0xC0 ≤ b) :
    isCharBoundary bs i = true := by
  rw [isCharBoundary]
  split_ifs with h0
  · rfl
  · rw [hg]
    simpa using hb

/-- Character boundaries never exceed the length. -/
theorem isCharBoundary_le {bs : List Nat} {i : Nat}
    (h : isCharBoundary bs i = true) : i ≤ bs.length := by
  rw [isCharBoundary] at h
  split_ifs at h with h0
  · omega
  · rcases hg : bs[i]? with _ | b
    · rw [hg] at h
      simp only [decide_eq_true_eq] at h
      omega
    · have : ¬ bs.length ≤ i := fun hle => by
        rw [List.getElem?_eq_none hle] at hg
        cases hg
      omega

theorem isPrefixOf_append {pat bs : List Nat}
    (h : pat.isPrefixOf bs = true) : ∃ t, bs = pat ++ t := by
  induction pat generalizing bs with
  | nil => exact ⟨bs, rfl⟩
  | cons p ps ih =>
    rcases bs with _ | ⟨b, r⟩
    · simp [List.isPrefixOf] at h
    · simp only [List.isPrefixOf, Bool.and_eq_true, beq_iff_eq] at h
      obtain ⟨t, ht⟩ := ih h.2
      exact ⟨t, by rw [ht, h.1, List.cons_append]⟩

/-- `str::find(pat)`: byte index of the leftmost occurrence. -/
def findSub (bs pat : List Nat) : Option Nat :=
  if pat.isPrefixOf bs then some 0
  else
    match bs with
    | [] => none
    | _ :: r => (findSub r pat).map (fun n => n + 1)
termination_by bs.length
decreasing_by simp

theorem findSub_sound {pat : List Nat} :
    ∀ {bs : List Nat} {i : Nat}, findSub bs pat = some i →
      ∃ t, bs.drop i = pat ++ t := by
  intro bs
  induction bs with
  | nil =>
    intro i h
    rw [findSub] at h
    split_ifs at h with hp
    · cases h
      exact isPrefixOf_append hp
  | cons b r ih =>
    intro i h
    rw [findSub] at h
    split_ifs at h with hp
    · cases h
      exact isPrefixOf_append hp
    · simp only [Option.map_eq_some'] at h
      obtain ⟨j, hj, hij⟩ := h
      subst hij
      exact ih hj

/-- `BVec::replace_range` (via `replace_range_impl`) at the byte level:
clamp the range, and unless both the deleted range and the replacement
are empty, shift the tail and copy the replacement in.  The result is
`take off ++ src ++ drop (off + del_len)`. -/
def bvecReplaceRange (bs : List Nat) (start e : Nat) (src : List Nat) :
    List Nat :=
  let dst_len := bs.length
  let src_len := src.length
  let off := min start dst_len
  let del_len := min (e - off) (dst_len - off)
  if del_len = 0 ∧ src_len = 0 then bs
  else bs.take off ++ src ++ bs.drop (off + del_len)

/-- `BString::replace_range(alloc, start..e, replace_with)`: asserts both
bounds are character boundaries (panic — `none` — otherwise), then
delegates to the byte-level `replace_range`. -/
def replace_range (bs : List Nat) (start e : Nat) (repl : List Nat) :
    Option (List Nat) :=
  if isCharBoundary bs start = true ∧ isCharBoundary bs e = true then
    some (bvecReplaceRange bs start e repl)
  else none

/-- `BString::push(alloc, ch)`: encode the char into the spare tail. -/
def push (bs : List Nat) (ch : Nat) : List Nat := bs ++ encodeChar ch

/-- `BString::push_str(alloc, s)` (an `extend_from_slice`). -/
def push_str (bs s : List Nat) : List Nat := bs ++ s

/-- `BString::clear()`. -/
def clear (bs : List Nat) : List Nat := []

/-- `BString::extend(alloc, iter)`: push each char of the iterator. -/
def extend (bs : List Nat) (cs : List Nat) : List Nat :=
  cs.foldl push bs

/-- `BString::from_utf8(vec)`: validate, else report the error. -/
def from_utf8 (v : List Nat) : Option (List Nat) :=
  if isValidUtf8 v then some v else none

/-- `BString::replace_once_in_place(alloc, old, new)`: find `old`, replace
its byte range through the byte-level `replace_range` (no boundary
re-check: a match of a valid needle in a valid haystack is always
boundary-aligned). -/
def replace_once_in_place (bs old new : List Nat) : List Nat :=
  match findSub bs old with
  | some beg => bvecReplaceRange bs beg (beg + old.length) new
  | none => bs

/-- Replacing between two character boundaries with a valid replacement
preserves validity. -/
theorem bvecReplaceRange_valid {bs : List Nat} (hv : Utf8Valid bs)
    {start e : Nat} (hs : isCharBoundary bs start = true)
    (he : isCharBoundary bs e = true) {src : List Nat}
    (hsrc : Utf8Valid src) :
    Utf8Valid (bvecReplaceRange bs start e src) := by
  have hsl := isCharBoundary_le hs
  have hel := isCharBoundary_le he
  simp only [bvecReplaceRange]
  split_ifs with hno
  · exact hv
  · have hoff : min start bs.length = start := by omega
    rw [hoff]
    obtain ⟨hts, hds⟩ := utf8Valid_boundary_split hv start hs
    have hcases : start + min (e - start) (bs.length - start) = start ∨
        start + min (e - start) (bs.length - start) = e := by omega
    rcases hcases with hd | hd
    · rw [hd]
      exact Utf8Valid.append (Utf8Valid.append hts hsrc) hds
    · rw [hd]
      obtain ⟨_, hde⟩ := utf8Valid_boundary_split hv e he
      exact Utf8Valid.append (Utf8Valid.append hts hsrc) hde

/-- Replacing a found occurrence of a valid needle by a valid string in a
valid haystack preserves validity. -/
theorem replace_once_valid {bs old new : List Nat} (hbs : Utf8Valid bs)
    (hold : Utf8Valid old) (hnew : Utf8Valid new) :
    Utf8Valid (replace_once_in_place bs old new) := by
  rw [replace_once_in_place]
  rcases hf : findSub bs old with _ | beg
  · exact hbs
  · obtain ⟨t, ht⟩ := findSub_sound hf
    cases hold with
    | nil =>
      -- an empty needle matches at index 0
      have h0 : findSub bs [] = some 0 := by
        rw [findSub.eq_def]
        simp [List.isPrefixOf]
      rw [h0] at hf
      cases hf
      dsimp only
      by_cases hne2 : new = []
      · subst hne2
        have hres : bvecReplaceRange bs 0 (0 + List.length ([] : List Nat)) [] = bs := by
          simp [bvecReplaceRange]
        rw [hres]
        exact hbs
      · have hres : bvecReplaceRange bs 0 (0 + List.length ([] : List Nat)) new =
            new ++ bs := by
          simp only [bvecReplaceRange]
          rw [if_neg]
          · simp
          · rintro ⟨_, hlen⟩
            exact hne2 (List.length_eq_zero.mp hlen)
        rw [hres]
        exact Utf8Valid.append hnew hbs
    | cons c rest hc hrest =>
      obtain ⟨b0, t0, henc, hb0⟩ := encodeChar_head c
      have holdv : Utf8Valid (encodeChar c ++ rest) :=
        Utf8Valid.cons c _ hc hrest
      have hhead : bs[beg]? = some b0 := by
        have h1 : (bs.drop beg)[0]? = some b0 := by
          rw [ht, henc]
          simp
        rw [List.getElem?_drop] at h1
        rwa [Nat.add_zero] at h1
      have hbound : isCharBoundary bs beg = true :=
        isCharBoundary_of_byte hhead hb0
      obtain ⟨htake, hdrop⟩ := utf8Valid_boundary_split hbs beg hbound
      have htv : Utf8Valid t := by
        apply utf8Valid_append_cancel holdv
        rwa [ht] at hdrop
      have hbeglt : beg < bs.length := by
        by_contra hle
        rw [List.getElem?_eq_none (by omega)] at hhead
        cases hhead
      have hlendrop : bs.length - beg = (encodeChar c ++ rest).length + t.length := by
        have := congrArg List.length ht
        simp only [List.length_drop, List.length_append] at this
        simp only [List.length_append] at this ⊢
        omega
      have hL1 : 1 ≤ (encodeChar c ++ rest).length := by
        rw [henc]
        simp
      simp only [bvecReplaceRange]
      have hoff : min beg bs.length = beg := by omega
      rw [hoff]
      have hdel : min (beg + (encodeChar c ++ rest).length - beg)
          (bs.length - beg) = (encodeChar c ++ rest).length := by
        omega
      rw [hdel]
      split_ifs with hno
      · omega
      · have hdropL : bs.drop (beg + (encodeChar c ++ rest).length) = t := by
          have h1 : List.drop ((encodeChar c ++ rest).length) (List.drop beg bs) =
              List.drop (beg + (encodeChar c ++ rest).length) bs :=
            List.drop_drop _ _ _
          rw [← h1, ht, List.drop_left]
        rw [hdropL]
        exact Utf8Valid.append (Utf8Valid.append htake hnew) htv

/-- The chunker never returns an empty chunk list when it starts with a
non-empty accumulator or non-empty input. -/
theorem utf8ChunksGo_ne_nil :
    ∀ n bs acc, bs.length = n → (acc ≠ [] ∨ bs ≠ []) →
      utf8ChunksGo bs acc ≠ [] := by
  intro n
  induction n using Nat.strong_induction_on with
  | _ n ih =>
    intro bs acc hn hne
    rcases bs with _ | ⟨b, r⟩
    · rw [utf8ChunksGo_nil]
      rcases hne with h | h
      · rw [if_neg h]
        simp
      · exact absurd rfl h
    · rcases hs : utf8Step (b :: r) with ⟨c, w⟩ | k | _
      · rw [utf8ChunksGo_ok hs]
        have hw := utf8Step_ok_width hs
        refine ih ((b :: r).drop w).length ?_ _ _ rfl (Or.inl ?_)
        · subst hn
          simp only [List.length_drop]
          simp only [List.length_cons] at hw ⊢
          omega
        · have : (b :: r).take w ≠ [] := by
            rcases w with _ | w
            · omega
            · simp
          simp [this]
      · rw [utf8ChunksGo_err hs]
        simp
      · rw [utf8ChunksGo_more hs]
        simp

/-- If the chunker reports a first chunk with empty invalid part, the
whole input was valid and that chunk is the only one. -/
theorem utf8ChunksGo_first_valid :
    ∀ n bs acc val rest, bs.length = n → Utf8Valid acc →
      utf8ChunksGo bs acc = (val, []) :: rest →
      val = acc ++ bs ∧ rest = [] ∧ Utf8Valid (acc ++ bs) := by
  intro n
  induction n using Nat.strong_induction_on with
  | _ n ih =>
    intro bs acc val rest hn hacc h
    rcases bs with _ | ⟨b, r⟩
    · rw [utf8ChunksGo_nil] at h
      split_ifs at h with hne <;> (try cases h) <;>
        exact ⟨(List.append_nil acc).symm, rfl, by
          rw [List.append_nil]; exact hacc⟩
    · rcases hs : utf8Step (b :: r) with ⟨c, w⟩ | k | _
      · rw [utf8ChunksGo_ok hs] at h
        have hw := utf8Step_ok_width hs
        have hsound := utf8Step_ok_sound hs
        have hchar : Utf8Valid (encodeChar c) := by
          have hx := Utf8Valid.cons c [] hsound.1 Utf8Valid.nil
          rwa [List.append_nil] at hx
        have hacc2 : Utf8Valid (acc ++ (b :: r).take w) := by
          rw [← hsound.2]
          exact Utf8Valid.append hacc hchar
        obtain ⟨hv, hr, hval⟩ := ih ((b :: r).drop w).length
          (by subst hn
              simp only [List.length_drop]
              simp only [List.length_cons] at hw ⊢
              omega) _ _ _ _ rfl hacc2 h
        refine ⟨?_, hr, ?_⟩
        · rw [hv, List.append_assoc, List.take_append_drop]
        · rw [List.append_assoc, List.take_append_drop] at hval
          exact hval
      · rw [utf8ChunksGo_err hs] at h
        simp only [List.cons.injEq, Prod.mk.injEq] at h
        obtain ⟨⟨_, hinv⟩, _⟩ := h
        exfalso
        have hk := utf8Step_err_len hs (by simp)
        rcases k with _ | k
        · omega
        · simp at hinv
      · rw [utf8ChunksGo_more hs] at h
        simp only [List.cons.injEq, Prod.mk.injEq] at h
        obtain ⟨⟨_, hinv⟩, _⟩ := h
        cases hinv

/-- The replacement loop always produces valid UTF-8, whatever the
input. -/
theorem lossyChunks_go_valid :
    ∀ n bs acc, bs.length = n → Utf8Valid acc →
      Utf8Valid (lossyChunks (utf8ChunksGo bs acc)) := by
  intro n
  induction n using Nat.strong_induction_on with
  | _ n ih =>
    intro bs acc hn hacc
    rcases bs with _ | ⟨b, r⟩
    · rw [utf8ChunksGo_nil]
      split_ifs with hne
      · exact Utf8Valid.nil
      · simpa [lossyChunks] using hacc
    · rcases hs : utf8Step (b :: r) with ⟨c, w⟩ | k | _
      · rw [utf8ChunksGo_ok hs]
        have hw := utf8Step_ok_width hs
        have hsound := utf8Step_ok_sound hs
        have hchar : Utf8Valid (encodeChar c) := by
          have hx := Utf8Valid.cons c [] hsound.1 Utf8Valid.nil
          rwa [List.append_nil] at hx
        refine ih ((b :: r).drop w).length ?_ _ _ rfl ?_
        · subst hn
          simp only [List.length_drop]
          simp only [List.length_cons] at hw ⊢
          omega
        · rw [← hsound.2]
          exact Utf8Valid.append hacc hchar
      · rw [utf8ChunksGo_err hs]
        have hk := utf8Step_err_len hs (by simp)
        simp only [lossyChunks]
        have htk : (b :: r).take k ≠ [] := by
          rcases k with _ | k
          · omega
          · simp
        rw [if_neg htk]
        refine Utf8Valid.append (Utf8Valid.append hacc fffd_valid) ?_
        refine ih ((b :: r).drop k).length ?_ _ _ rfl Utf8Valid.nil
        subst hn
        simp only [List.length_drop]
        simp only [List.length_cons] at hk ⊢
        omega
      · rw [utf8ChunksGo_more hs]
        simp only [lossyChunks]
        rw [if_neg (by simp)]
        exact Utf8Valid.append (Utf8Valid.append hacc fffd_valid) Utf8Valid.nil

/-- `from_utf8_lossy` always produces valid UTF-8 (shared helper). -/
theorem from_utf8_lossy_valid (fresh : Nat) (v : BVecBytes) :
    Utf8Valid ((from_utf8_lossy fresh v).data) := by
  rcases hch : utf8Chunks v.data with _ | ⟨⟨val, inv⟩, rest⟩
  · have hdata : v.data = [] := by
      by_contra hne
      rw [utf8Chunks] at hch
      exact utf8ChunksGo_ne_nil v.data.length v.data [] rfl (Or.inr hne) hch
    simp only [from_utf8_lossy, hch]
    rw [hdata]
    exact Utf8Valid.nil
  · by_cases hinv : inv = []
    · subst hinv
      rw [utf8Chunks] at hch
      obtain ⟨hval, hrest, hvalid⟩ := utf8ChunksGo_first_valid v.data.length
        v.data [] val rest rfl Utf8Valid.nil hch
      rw [List.nil_append] at hvalid
      simp only [from_utf8_lossy, utf8Chunks, hch, if_pos rfl]
      exact hvalid
    · simp only [from_utf8_lossy, hch, if_neg hinv]
      rw [← hch]
      rw [utf8Chunks]
      exact lossyChunks_go_valid v.data.length v.data [] rfl Utf8Valid.nil

/-- C7: every public `BString` operation preserves the valid-UTF-8
invariant — `push` of a char, `push_str`, `push_repeat`, `extend`,
`from_utf8`, `from_utf8_lossy`, `replace_range`, `replace_once_in_place`
and `clear` — and `replace_range` panics exactly when a caller-supplied
range bound does not fall on a character boundary. -/
theorem bstring_utf8_invariant :
    (∀ bs ch, Utf8Valid bs → ScalarValue ch → Utf8Valid (push bs ch)) ∧
    (∀ bs s, Utf8Valid bs → Utf8Valid s → Utf8Valid (push_str bs s)) ∧
    (∀ bs ch n, Utf8Valid bs → ScalarValue ch →
      Utf8Valid (push_repeat bs ch n)) ∧
    (∀ bs cs, Utf8Valid bs → (∀ c ∈ cs, ScalarValue c) →
      Utf8Valid (extend bs cs)) ∧
    (∀ v out, from_utf8 v = some out → Utf8Valid out) ∧
    (∀ fresh v, Utf8Valid ((from_utf8_lossy fresh v).data)) ∧
    (∀ bs start e repl, Utf8Valid bs → Utf8Valid repl →
      (∀ out, replace_range bs start e repl = some out → Utf8Valid out) ∧
      (replace_range bs start e repl = none ↔
        ¬(isCharBoundary bs start = true ∧ isCharBoundary bs e = true))) ∧
    (∀ bs old new, Utf8Valid bs → Utf8Valid old → Utf8Valid new →
      Utf8Valid (replace_once_in_place bs old new)) ∧
    (∀ bs, Utf8Valid (clear bs)) := by
  refine ⟨?_, ?_, ?_, ?_, ?_, ?_, ?_, ?_, ?_⟩
  · intro bs ch hbs hch
    have hchar : Utf8Valid (encodeChar ch) := by
      have hx := Utf8Valid.cons ch [] hch Utf8Valid.nil
      rwa [List.append_nil] at hx
    exact Utf8Valid.append hbs hchar
  · intro bs s hbs hs
    exact Utf8Valid.append hbs hs
  · intro bs ch n hbs hch
    rw [push_repeat_eq bs ch n hch]
    exact Utf8Valid.append hbs (joinRep_encode_valid ch hch n)
  · intro bs cs
    induction cs generalizing bs with
    | nil =>
      intro hbs _
      exact hbs
    | cons c cs ih =>
      intro hbs hcs
      have hc := hcs c (by simp)
      have hchar : Utf8Valid (encodeChar c) := by
        have hx := Utf8Valid.cons c [] hc Utf8Valid.nil
        rwa [List.append_nil] at hx
      exact ih (push bs c) (Utf8Valid.append hbs hchar)
        (fun x hx => hcs x (List.mem_cons_of_mem c hx))
  · intro v out h
    rw [from_utf8] at h
    split_ifs at h with hv
    · cases h
      exact isValidUtf8_sound v hv
  · exact from_utf8_lossy_valid
  · intro bs start e repl hbs hrepl
    constructor
    · intro out h
      rw [replace_range] at h
      split_ifs at h with hb
      · cases h
        exact bvecReplaceRange_valid hbs hb.1 hb.2 hrepl
    · rw [replace_range]
      split_ifs with hb
      · simp [hb]
      · simp [hb]
  · intro bs old new hbs hold hnew
    exact replace_once_valid hbs hold hnew
  · intro bs
    exact Utf8Valid.nil

/-- Witness for C7: pushing a char onto the empty string. -/
theorem bstring_utf8_invariant_witness :
    Utf8Valid (push [] 65) :=
  bstring_utf8_invariant.1 [] 65 Utf8Valid.nil ⟨by omega, by omega⟩

/-! ## `IntoIter::fold` (C10), from `collections/vec.rs`

The iterator state is a pair of positions into the element store
`elems`, modelled as a total function so that the out-of-bounds read
performed by the source's `fold` has a definite value. -/

structure IntoIter where
  ptr : Nat
  stop : Nat

/-- `IntoIter::next`: read the element at `ptr`, then advance. -/
def IntoIter.next {α : Type} (elems : Nat → α) (it : IntoIter) :
    Option (α × IntoIter) :=
  if it.ptr = it.stop then none
  else some (elems it.ptr, { it with ptr := it.ptr + 1 })

/-- `IntoIter::fold` exactly as the source writes it: each iteration
saves `ptr`, advances `self.ptr = ptr.add(1)`, and then calls
`f(accum, self.ptr.read())` — reading the element at `ptr + 1`, not at
`ptr`.  (The `ptr < stop` guard coincides with the source's
`ptr != end` on every reachable iterator state.) -/
def IntoIter.foldImpl {α β : Type} (elems : Nat → α) (it : IntoIter)
    (accum : β) (f : β → α → β) : β :=
  if h : it.ptr < it.stop then
    IntoIter.foldImpl elems { it with ptr := it.ptr + 1 }
      (f accum (elems (it.ptr + 1))) f
  else accum
termination_by it.stop - it.ptr
decreasing_by omega

/-- The naive loop: repeatedly call `next` and apply `f` to the element
it yields. -/
def IntoIter.foldNaive {α β : Type} (elems : Nat → α) (it : IntoIter)
    (accum : β) (f : β → α → β) : β :=
  if h : it.ptr < it.stop then
    IntoIter.foldNaive elems { it with ptr := it.ptr + 1 }
      (f accum (elems it.ptr)) f
  else accum
termination_by it.stop - it.ptr
decreasing_by omega

/-- The element store of the counterexample: a `BVec` holding `[10, 20]`
(indices 0 and 1); index 2 is one past the end, holding garbage 999. -/
def foldBugElems : Nat → Nat := fun i => List.getD [10, 20, 999] i 0

/-- The counterexample iterator: `into_iter` of the two-element vector. -/
def foldBugIter : IntoIter := { ptr := 0, stop := 2 }

/-- `foldNaive` is literally the loop that repeatedly calls `next`:
one unfolding step agrees with `next` on every reachable state. -/
theorem foldNaive_is_next_loop (elems : Nat → Nat) (p k accum : Nat)
    (f : Nat → Nat → Nat) :
    IntoIter.foldNaive elems { ptr := p, stop := p + k } accum f =
      match IntoIter.next elems { ptr := p, stop := p + k } with
      | none => accum
      | some (x, it2) => IntoIter.foldNaive elems it2 (f accum x) f := by
  rcases k with _ | k
  · rw [IntoIter.foldNaive, dif_neg (by dsimp only; omega)]
    simp [IntoIter.next]
  · rw [IntoIter.foldNaive, dif_pos (by dsimp only; omega)]
    rw [IntoIter.next, if_neg (by dsimp only; omega)]

/-- C10 (refuted by the code): `fold` does not visit the vector's
elements in order — on the vector `[10, 20]` it skips the first element
and reads one past the end, so it disagrees with the naive `next`
loop. -/
theorem intoIter_fold_bug :
    IntoIter.foldImpl foldBugElems foldBugIter 0 (fun a x => a + x) = 1019 ∧
    IntoIter.foldNaive foldBugElems foldBugIter 0 (fun a x => a + x) = 30 ∧
    IntoIter.foldImpl foldBugElems foldBugIter 0 (fun a x => a + x) ≠
      IntoIter.foldNaive foldBugElems foldBugIter 0 (fun a x => a + x) := by
  have h1 : IntoIter.foldImpl foldBugElems foldBugIter 0
      (fun a x => a + x) = 1019 := by
    rw [IntoIter.foldImpl, dif_pos (by decide)]
    rw [IntoIter.foldImpl, dif_pos (by decide)]
    rw [IntoIter.foldImpl, dif_neg (by decide)]
    decide
  have h2 : IntoIter.foldNaive foldBugElems foldBugIter 0
      (fun a x => a + x) = 30 := by
    rw [IntoIter.foldNaive, dif_pos (by decide)]
    rw [IntoIter.foldNaive, dif_pos (by decide)]
    rw [IntoIter.foldNaive, dif_neg (by decide)]
    decide
  refine ⟨h1, h2, ?_⟩
  rw [h1, h2]
  decide

end Stdext
